import Mathlib

/-!
Verification of the `httpjson` Go package (charset-aware JSON transport).

The development shallowly embeds the package's core: the JSON-safe
transcoder `jsonTransformer.Transform` (src/json.go), the charset-aware
`marshal` / `unmarshal` operations, the request/response glue
(`MarshalRequest`, `WriteResponse`, `ResponseError.Error`), and models of
the external collaborators the code calls into (Go's `unicode/utf8`,
`unicode/utf16`, `encoding/json`, `mime`, and the `golang.org/x/text`
charset registry and its encoders/decoders).

Bytes and Unicode code points are both modelled as `Nat` (with explicit
range conditions where they matter); byte strings and rune strings are
`List Nat`.
-/

namespace Httpjson

/-! ## Model of Go's `unicode/utf8` package (external collaborator).

`utf8DecodeRune` mirrors Go's `utf8.DecodeRune`: it returns the decoded
code point together with the number of bytes consumed, and returns
`(RuneError, 0)` on empty input and `(RuneError, 1)` on invalid or
incomplete input.  `RuneError` is U+FFFD = 0xFFFD. -/

def runeError : Nat := 0xFFFD

/-- Is `b` a UTF-8 continuation byte (0x80..0xBF)? -/
def isCont (b : Nat) : Bool := 0x80 ≤ b && b ≤ 0xBF

/-- Accept range for the second byte of a three-byte sequence
(Go's `acceptRanges` table). -/
def accept3 (b0 b1 : Nat) : Bool :=
  if b0 = 0xE0 then 0xA0 ≤ b1 && b1 ≤ 0xBF
  else if b0 = 0xED then 0x80 ≤ b1 && b1 ≤ 0x9F
  else isCont b1

/-- Accept range for the second byte of a four-byte sequence. -/
def accept4 (b0 b1 : Nat) : Bool :=
  if b0 = 0xF0 then 0x90 ≤ b1 && b1 ≤ 0xBF
  else if b0 = 0xF4 then 0x80 ≤ b1 && b1 ≤ 0x8F
  else isCont b1

/-- Model of Go's `utf8.DecodeRune`. -/
def utf8DecodeRune : List Nat → Nat × Nat
  | [] => (runeError, 0)
  | b0 :: rest =>
    if b0 < 0x80 then (b0, 1)
    else if b0 < 0xC2 then (runeError, 1)
    else if b0 < 0xE0 then
      match rest with
      | b1 :: _ =>
        if isCont b1 then ((b0 - 0xC0) * 0x40 + (b1 - 0x80), 2) else (runeError, 1)
      | [] => (runeError, 1)
    else if b0 < 0xF0 then
      match rest with
      | b1 :: b2 :: _ =>
        if accept3 b0 b1 && isCont b2 then
          ((b0 - 0xE0) * 0x1000 + (b1 - 0x80) * 0x40 + (b2 - 0x80), 3)
        else (runeError, 1)
      | _ => (runeError, 1)
    else if b0 < 0xF5 then
      match rest with
      | b1 :: b2 :: b3 :: _ =>
        if accept4 b0 b1 && isCont b2 && isCont b3 then
          ((b0 - 0xF0) * 0x40000 + (b1 - 0x80) * 0x1000 + (b2 - 0x80) * 0x40 + (b3 - 0x80), 4)
        else (runeError, 1)
      | _ => (runeError, 1)
    else (runeError, 1)

/-- Model of Go's `utf8.FullRune`: whether the input begins with a full
UTF-8 encoding of a rune (an invalid encoding counts as full, a strict
prefix of a valid multi-byte sequence does not). -/
def utf8FullRune : List Nat → Bool
  | [] => false
  | b0 :: rest =>
    let need : Nat :=
      if b0 < 0x80 then 1 else if b0 < 0xC2 then 1
      else if b0 < 0xE0 then 2 else if b0 < 0xF0 then 3
      else if b0 < 0xF5 then 4 else 1
    if need ≤ 1 + rest.length then true
    else
      match rest with
      | [] => false
      | b1 :: rest2 =>
        let ok1 : Bool :=
          if b0 < 0xE0 then isCont b1
          else if b0 < 0xF0 then accept3 b0 b1
          else accept4 b0 b1
        if !ok1 then true
        else
          match rest2 with
          | [] => false
          | b2 :: _ => !isCont b2

/-- A Unicode scalar value: in range and not a surrogate. -/
def ValidRune (r : Nat) : Prop := r < 0x110000 ∧ ¬(0xD800 ≤ r ∧ r ≤ 0xDFFF)

instance : DecidablePred ValidRune := fun _ => by unfold ValidRune; infer_instance

/-- Model of Go's `utf8.EncodeRune` (as a byte list): surrogates and
out-of-range values encode as U+FFFD, like in Go. -/
def utf8EncodeRune (r : Nat) : List Nat :=
  if r < 0x80 then [r]
  else if r < 0x800 then [0xC0 + r / 0x40, 0x80 + r % 0x40]
  else if r < 0x10000 then
    if 0xD800 ≤ r ∧ r ≤ 0xDFFF then [0xEF, 0xBF, 0xBD]
    else [0xE0 + r / 0x1000, 0x80 + (r / 0x40) % 0x40, 0x80 + r % 0x40]
  else if r < 0x110000 then
    [0xF0 + r / 0x40000, 0x80 + (r / 0x1000) % 0x40, 0x80 + (r / 0x40) % 0x40, 0x80 + r % 0x40]
  else [0xEF, 0xBF, 0xBD]

/-- UTF-8 encoding of a rune string. -/
def utf8EncodeRunes (rs : List Nat) : List Nat := rs.flatMap utf8EncodeRune

theorem utf8EncodeRunes_nil : utf8EncodeRunes [] = [] := rfl

theorem utf8EncodeRunes_cons (r : Nat) (rs : List Nat) :
    utf8EncodeRunes (r :: rs) = utf8EncodeRune r ++ utf8EncodeRunes rs := rfl

theorem utf8EncodeRunes_append (a b : List Nat) :
    utf8EncodeRunes (a ++ b) = utf8EncodeRunes a ++ utf8EncodeRunes b := by
  simp [utf8EncodeRunes]

theorem utf8EncodeRune_length_pos (r : Nat) : 1 ≤ (utf8EncodeRune r).length := by
  unfold utf8EncodeRune
  split_ifs <;> simp

/-- Decoding any nonempty byte string consumes at least one byte. -/
theorem utf8DecodeRune_len_pos (b : Nat) (rest : List Nat) :
    1 ≤ (utf8DecodeRune (b :: rest)).2 := by
  rcases rest with _ | ⟨b1, _ | ⟨b2, _ | ⟨b3, r3⟩⟩⟩ <;>
    (simp only [utf8DecodeRune]; split_ifs <;> simp [runeError])

/-- Decoding the UTF-8 encoding of a valid scalar value recovers the value,
whatever follows it. -/
theorem utf8DecodeRune_encode (r : Nat) (t : List Nat) (h : ValidRune r) :
    utf8DecodeRune (utf8EncodeRune r ++ t) = (r, (utf8EncodeRune r).length) := by
  obtain ⟨hlt, hsur⟩ := h
  by_cases h1 : r < 0x80
  · simp only [utf8EncodeRune, if_pos h1]
    simp [utf8DecodeRune, h1]
  · by_cases h2 : r < 0x800
    · have hc1 : isCont (0x80 + r % 0x40) = true := by
        unfold isCont
        simp only [Bool.and_eq_true, decide_eq_true_eq]
        omega
      simp only [utf8EncodeRune, if_neg h1, if_pos h2]
      simp only [List.cons_append, List.nil_append, utf8DecodeRune, List.length_cons,
        List.length_nil]
      rw [if_neg (by omega), if_neg (by omega), if_pos (by omega), if_pos hc1]
      simp only [Prod.mk.injEq, and_true]
      omega
    · by_cases h3 : r < 0x10000
      · have hns : ¬(0xD800 ≤ r ∧ r ≤ 0xDFFF) := hsur
        have hacc : accept3 (0xE0 + r / 0x1000) (0x80 + (r / 0x40) % 0x40) = true := by
          unfold accept3 isCont
          split_ifs <;> (simp only [Bool.and_eq_true, decide_eq_true_eq]; omega)
        have hc2 : isCont (0x80 + r % 0x40) = true := by
          unfold isCont
          simp only [Bool.and_eq_true, decide_eq_true_eq]
          omega
        simp only [utf8EncodeRune, if_neg h1, if_neg h2, if_pos h3, if_neg hns]
        simp only [List.cons_append, List.nil_append, utf8DecodeRune, List.length_cons,
          List.length_nil]
        rw [if_neg (by omega), if_neg (by omega), if_neg (by omega), if_pos (by omega),
          if_pos (by simp [hacc, hc2])]
        simp only [Prod.mk.injEq, and_true]
        omega
      · have h4 : r < 0x110000 := hlt
        have hacc : accept4 (0xF0 + r / 0x40000) (0x80 + (r / 0x1000) % 0x40) = true := by
          unfold accept4 isCont
          split_ifs <;> (simp only [Bool.and_eq_true, decide_eq_true_eq]; omega)
        have hc2 : isCont (0x80 + (r / 0x40) % 0x40) = true := by
          unfold isCont
          simp only [Bool.and_eq_true, decide_eq_true_eq]
          omega
        have hc3 : isCont (0x80 + r % 0x40) = true := by
          unfold isCont
          simp only [Bool.and_eq_true, decide_eq_true_eq]
          omega
        simp only [utf8EncodeRune, if_neg h1, if_neg h2, if_neg h3, if_pos h4]
        simp only [List.cons_append, List.nil_append, utf8DecodeRune, List.length_cons,
          List.length_nil]
        rw [if_neg (by omega), if_neg (by omega), if_neg (by omega), if_neg (by omega),
          if_pos (by omega), if_pos (by simp [hacc, hc2, hc3])]
        simp only [Prod.mk.injEq, and_true]
        omega

/-- If the input is not a full rune (a strict prefix of a valid multi-byte
sequence, or empty), `DecodeRune` reports `RuneError`. -/
theorem utf8DecodeRune_of_not_fullRune (s : List Nat) (h : utf8FullRune s = false) :
    (utf8DecodeRune s).1 = runeError := by
  rcases s with _ | ⟨b0, _ | ⟨b1, _ | ⟨b2, _ | ⟨b3, r3⟩⟩⟩⟩
  · simp [utf8DecodeRune]
  · simp only [utf8FullRune, List.length_nil] at h
    simp only [utf8DecodeRune]
    split_ifs at h ⊢ <;> simp_all
  · simp only [utf8FullRune, List.length_cons, List.length_nil] at h
    simp only [utf8DecodeRune]
    split_ifs at h ⊢ <;> simp_all
  · simp only [utf8FullRune, List.length_cons, List.length_nil] at h
    simp only [utf8DecodeRune]
    split_ifs at h ⊢ <;> simp_all <;> omega
  · simp only [utf8FullRune, List.length_cons] at h
    simp only [utf8DecodeRune]
    split_ifs at h ⊢ <;> simp_all <;> omega

/-- `utf8DecodeRune_len_pos` phrased for an arbitrary nonempty list. -/
theorem utf8DecodeRune_len_pos' (s : List Nat) (h : s ≠ []) :
    1 ≤ (utf8DecodeRune s).2 := by
  cases s with
  | nil => simp at h
  | cons b rest => exact utf8DecodeRune_len_pos b rest

/-- Decode an entire byte string to code points, as Go's JSON machinery
effectively does (invalid bytes yield U+FFFD, per `utf8.DecodeRune`). -/
def utf8DecodeAll (s : List Nat) : List Nat :=
  if hs : s = [] then []
  else (utf8DecodeRune s).1 :: utf8DecodeAll (s.drop (utf8DecodeRune s).2)
termination_by s.length
decreasing_by
  simp only [List.length_drop]
  have h1 := utf8DecodeRune_len_pos' s hs
  have h2 : 1 ≤ s.length := by
    cases s with
    | nil => simp at hs
    | cons a t => simp
  omega

theorem utf8DecodeAll_nil : utf8DecodeAll [] = [] := by
  rw [utf8DecodeAll.eq_def]
  simp

theorem utf8DecodeAll_cons (s : List Nat) (hs : s ≠ []) :
    utf8DecodeAll s = (utf8DecodeRune s).1 :: utf8DecodeAll (s.drop (utf8DecodeRune s).2) := by
  conv_lhs => rw [utf8DecodeAll.eq_def]
  simp [hs]

/-- Decoding inverts encoding on strings of valid scalar values. -/
theorem utf8DecodeAll_encode (rs : List Nat) (h : ∀ r ∈ rs, ValidRune r) :
    utf8DecodeAll (utf8EncodeRunes rs) = rs := by
  induction rs with
  | nil => rw [utf8EncodeRunes_nil, utf8DecodeAll_nil]
  | cons r rs ih =>
    have hr : ValidRune r := h r (by simp)
    have hd := utf8DecodeRune_encode r (utf8EncodeRunes rs) hr
    have hne : utf8EncodeRune r ≠ [] := by
      have := utf8EncodeRune_length_pos r
      intro hh
      rw [hh] at this
      simp at this
    have hne2 : utf8EncodeRune r ++ utf8EncodeRunes rs ≠ [] := by
      simp only [ne_eq, List.append_eq_nil]
      intro hh
      exact hne hh.1
    rw [utf8EncodeRunes_cons, utf8DecodeAll_cons _ hne2, hd]
    simp only [List.drop_left]
    rw [ih (fun x hx => h x (by simp [hx]))]

/-- Pure-ASCII strings are their own UTF-8 encoding. -/
theorem utf8EncodeRunes_ascii (rs : List Nat) (h : ∀ r ∈ rs, r < 0x80) :
    utf8EncodeRunes rs = rs := by
  induction rs with
  | nil => rfl
  | cons r rs ih =>
    have hr : r < 0x80 := h r (by simp)
    rw [utf8EncodeRunes_cons, ih (fun x hx => h x (by simp [hx]))]
    simp [utf8EncodeRune, hr]

/-! ## The escape helpers of src/json.go and Go's `unicode/utf16`. -/

/-- The `hexDigits` table lookup of src/json.go (`hexDigits[n]` for
`"0123456789abcdef"`); call sites only use `n < 16`. -/
def hexDigit (n : Nat) : Nat := if n < 10 then 48 + n else 87 + n

/-- Embedding of `escape` (src/json.go): the six bytes `\uXXXX` with
four lowercase zero-padded hex digits of the low 16 bits of `r`.
Call sites guarantee `r < 0x10000`. -/
def escape (r : Nat) : List Nat :=
  [92, 117, hexDigit (r / 0x1000), hexDigit ((r / 0x100) % 16),
    hexDigit ((r / 0x10) % 16), hexDigit (r % 16)]

/-- Model of Go's `utf16.EncodeRune`: the surrogate pair for a
supplementary code point, `(U+FFFD, U+FFFD)` for invalid input. -/
def utf16EncodeRune (r : Nat) : Nat × Nat :=
  if r < 0x10000 ∨ 0x10FFFF < r then (0xFFFD, 0xFFFD)
  else ((r - 0x10000) / 0x400 + 0xD800, (r - 0x10000) % 0x400 + 0xDC00)

/-- The escape buffer built by `jsonTransformer.Transform` (src/json.go
lines 196-204): one `\uXXXX` escape below 0x10000, a surrogate pair of
escapes (high then low) otherwise. -/
def escBytes (r : Nat) : List Nat :=
  if r < 0x10000 then escape r
  else escape (utf16EncodeRune r).1 ++ escape (utf16EncodeRune r).2

theorem escape_length (r : Nat) : (escape r).length = 6 := rfl

theorem hexDigit_lt (n : Nat) (h : n < 16) : hexDigit n < 0x80 := by
  unfold hexDigit
  split_ifs <;> omega

theorem escape_ascii (r : Nat) (hr : r < 0x10000) : ∀ b ∈ escape r, b < 0x80 := by
  intro b hb
  have h1 : r / 0x1000 < 16 := by omega
  have h2 : (r / 0x100) % 16 < 16 := by omega
  have h3 : (r / 0x10) % 16 < 16 := by omega
  have h4 : r % 16 < 16 := by omega
  simp only [escape, List.mem_cons, List.not_mem_nil, or_false] at hb
  rcases hb with h | h | h | h | h | h <;> subst h <;>
    first
      | omega
      | exact hexDigit_lt _ (by omega)

theorem utf16EncodeRune_lt (r : Nat) :
    (utf16EncodeRune r).1 < 0x10000 ∧ (utf16EncodeRune r).2 < 0x10000 := by
  unfold utf16EncodeRune
  split_ifs with h
  · simp
  · simp only []
    constructor <;> omega

theorem escBytes_ascii (r : Nat) : ∀ b ∈ escBytes r, b < 0x80 := by
  intro b hb
  unfold escBytes at hb
  split_ifs at hb with h
  · exact escape_ascii r h b hb
  · have := utf16EncodeRune_lt r
    rcases List.mem_append.mp hb with h1 | h1
    · exact escape_ascii _ this.1 b h1
    · exact escape_ascii _ this.2 b h1

/-! ## Transformer errors and the single-byte charset encoders
(model of the `golang.org/x/text` collaborators used via `ianaindex`). -/

/-- Errors a transformer step can report: `transform.ErrShortSrc`,
`transform.ErrShortDst`, the `replacementError` interface (an encoding's
"this rune is not in my repertoire" error carrying a replacement byte,
`internal.RepertoireError` in x/text), and an arbitrary other error. -/
inductive TErr where
  | shortSrc
  | shortDst
  | repertoire (b : Nat)
  | custom (n : Nat)
deriving DecidableEq, Repr

/-- A single-byte charset: `encodeRune` maps a code point to its charset
byte (`none` when the charset cannot represent it), `decodeByte` maps a
charset byte back to a code point (x/text decoders substitute U+FFFD for
undefined bytes and never error), and `sub` is the substitution byte the
encoder's repertoire error carries. -/
structure Charmap where
  encodeRune : Nat → Option Nat
  decodeByte : Nat → Nat
  sub : Nat

/-- Model of an x/text single-byte charset encoder's `Transform` over an
unbounded destination: scan UTF-8 runes from `src`; ASCII bytes take the
fast path; an incomplete trailing sequence yields `ErrShortSrc` when more
input may come and a repertoire error at EOF (Go encodes the invalid
input as `RuneError`, which single-byte charsets cannot represent); a
rune outside the charset yields the repertoire error. Returns the output
bytes, the number of source bytes consumed, and the error, like Go's
`(nDst, nSrc, err)`. -/
def charmapEncode (cm : Charmap) (src : List Nat) (atEOF : Bool) :
    List Nat × Nat × Option TErr :=
  if hs : src = [] then ([], 0, none)
  else
    let b := src.headD 0
    if b < 0x80 then
      match cm.encodeRune b with
      | some c =>
        let res := charmapEncode cm src.tail atEOF
        (c :: res.1, 1 + res.2.1, res.2.2)
      | none => ([], 0, some (TErr.repertoire cm.sub))
    else
      if (utf8DecodeRune src).2 = 1 then
        if !atEOF && !utf8FullRune src then ([], 0, some TErr.shortSrc)
        else ([], 0, some (TErr.repertoire cm.sub))
      else
        match cm.encodeRune (utf8DecodeRune src).1 with
        | some c =>
          let res := charmapEncode cm (src.drop (utf8DecodeRune src).2) atEOF
          (c :: res.1, (utf8DecodeRune src).2 + res.2.1, res.2.2)
        | none => ([], 0, some (TErr.repertoire cm.sub))
termination_by src.length
decreasing_by
  · have h2 : 1 ≤ src.length := by
      cases src with
      | nil => simp at hs
      | cons a t => simp
    simp only [List.length_tail]
    omega
  · have h1 := utf8DecodeRune_len_pos' src hs
    have h2 : 1 ≤ src.length := by
      cases src with
      | nil => simp at hs
      | cons a t => simp
    simp only [List.length_drop]
    omega

/-- Embedding of `jsonTransformer.Transform` (src/json.go lines 178-212),
parameterised by the underlying charset encoder's transform `E` and with
the destination buffer modelled as unbounded.  Loop: run the underlying
encoder; any error other than a repertoire (replacement) error is
returned as-is; on a repertoire error, UTF-8-decode one code point at the
current position, return `ErrShortSrc` when that yields `RuneError`, and
otherwise feed the code point's JSON escape through the underlying
encoder and continue. -/
def jsonTransform (E : List Nat → Bool → List Nat × Nat × Option TErr)
    (src : List Nat) (atEOF : Bool) : List Nat × Nat × Option TErr :=
  match E src atEOF with
  | (out, ns, some (TErr.repertoire _)) =>
    if hR : (utf8DecodeRune (src.drop ns)).1 = runeError then
      (out, ns, some TErr.shortSrc)
    else
      match E (escBytes (utf8DecodeRune (src.drop ns)).1) false with
      | (_, _, some e) => (out, ns, some e)
      | (out2, _, none) =>
        let res := jsonTransform E ((src.drop ns).drop (utf8DecodeRune (src.drop ns)).2) atEOF
        (out ++ out2 ++ res.1, ns + (utf8DecodeRune (src.drop ns)).2 + res.2.1, res.2.2)
  | (out, ns, none) => (out, ns, none)
  | (out, ns, some TErr.shortSrc) => (out, ns, some TErr.shortSrc)
  | (out, ns, some TErr.shortDst) => (out, ns, some TErr.shortDst)
  | (out, ns, some (TErr.custom n)) => (out, ns, some (TErr.custom n))
termination_by src.length
decreasing_by
  have h1 : src.drop ns ≠ [] := by
    intro hh
    rw [hh] at hR
    exact hR rfl
  have h2 := utf8DecodeRune_len_pos' (src.drop ns) h1
  have h3 : ¬(src.length ≤ ns) := fun hle => h1 (List.drop_eq_nil_of_le hle)
  simp only [List.length_drop]
  omega

theorem jsonTransform_ok (E : List Nat → Bool → List Nat × Nat × Option TErr)
    (src : List Nat) (atEOF : Bool) (out : List Nat) (ns : Nat)
    (h : E src atEOF = (out, ns, none)) :
    jsonTransform E src atEOF = (out, ns, none) := by
  rw [jsonTransform.eq_def, h]

/-- Any error other than a repertoire error is returned to the caller
unchanged, together with the positions reported by the underlying
encoder. -/
theorem jsonTransform_err (E : List Nat → Bool → List Nat × Nat × Option TErr)
    (src : List Nat) (atEOF : Bool) (out : List Nat) (ns : Nat) (e : TErr)
    (h : E src atEOF = (out, ns, some e)) (hne : ∀ b, e ≠ TErr.repertoire b) :
    jsonTransform E src atEOF = (out, ns, some e) := by
  rw [jsonTransform.eq_def, h]
  cases e with
  | repertoire b => exact absurd rfl (hne b)
  | shortSrc => rfl
  | shortDst => rfl
  | custom n => rfl

theorem jsonTransform_rep_shortSrc (E : List Nat → Bool → List Nat × Nat × Option TErr)
    (src : List Nat) (atEOF : Bool) (out : List Nat) (ns b : Nat)
    (h : E src atEOF = (out, ns, some (TErr.repertoire b)))
    (hr : (utf8DecodeRune (src.drop ns)).1 = runeError) :
    jsonTransform E src atEOF = (out, ns, some TErr.shortSrc) := by
  rw [jsonTransform.eq_def, h]
  simp only [dif_pos hr]

theorem jsonTransform_rep_escErr (E : List Nat → Bool → List Nat × Nat × Option TErr)
    (src : List Nat) (atEOF : Bool) (out : List Nat) (ns b : Nat)
    (out2 : List Nat) (n2 : Nat) (e : TErr)
    (h : E src atEOF = (out, ns, some (TErr.repertoire b)))
    (hr : (utf8DecodeRune (src.drop ns)).1 ≠ runeError)
    (h2 : E (escBytes (utf8DecodeRune (src.drop ns)).1) false = (out2, n2, some e)) :
    jsonTransform E src atEOF = (out, ns, some e) := by
  rw [jsonTransform.eq_def, h]
  simp only [dif_neg hr]
  rw [h2]

theorem jsonTransform_rep_step (E : List Nat → Bool → List Nat × Nat × Option TErr)
    (src : List Nat) (atEOF : Bool) (out : List Nat) (ns b : Nat)
    (out2 : List Nat) (n2 : Nat)
    (h : E src atEOF = (out, ns, some (TErr.repertoire b)))
    (hr : (utf8DecodeRune (src.drop ns)).1 ≠ runeError)
    (h2 : E (escBytes (utf8DecodeRune (src.drop ns)).1) false = (out2, n2, none)) :
    jsonTransform E src atEOF =
      (out ++ out2 ++
        (jsonTransform E ((src.drop ns).drop (utf8DecodeRune (src.drop ns)).2) atEOF).1,
       ns + (utf8DecodeRune (src.drop ns)).2 +
        (jsonTransform E ((src.drop ns).drop (utf8DecodeRune (src.drop ns)).2) atEOF).2.1,
       (jsonTransform E ((src.drop ns).drop (utf8DecodeRune (src.drop ns)).2) atEOF).2.2) := by
  rw [jsonTransform.eq_def, h]
  simp only [dif_neg hr]
  rw [h2]

theorem charmapEncode_nil (cm : Charmap) (atEOF : Bool) :
    charmapEncode cm [] atEOF = ([], 0, none) := by
  rw [charmapEncode.eq_def]
  simp

theorem utf8EncodeRune_head_ge (r : Nat) (h1 : ¬r < 0x80) (h : ValidRune r) (X : List Nat) :
    ¬((utf8EncodeRune r ++ X).headD 0 < 0x80) := by
  obtain ⟨hlt, _⟩ := h
  unfold utf8EncodeRune
  split_ifs <;> simp <;> omega

theorem utf8EncodeRune_length_ge2 (r : Nat) (h1 : ¬r < 0x80) (h : ValidRune r) :
    2 ≤ (utf8EncodeRune r).length := by
  obtain ⟨hlt, hsur⟩ := h
  unfold utf8EncodeRune
  split_ifs <;> simp_all

/-- One step of the single-byte charset encoder at a rune boundary:
a representable rune emits its charset byte and the encoder continues
with the rest; an unrepresentable one stops with the repertoire error. -/
theorem charmapEncode_rune (cm : Charmap) (r : Nat) (X : List Nat) (atEOF : Bool)
    (h : ValidRune r) :
    charmapEncode cm (utf8EncodeRune r ++ X) atEOF =
      match cm.encodeRune r with
      | some c =>
        (c :: (charmapEncode cm X atEOF).1,
         (utf8EncodeRune r).length + (charmapEncode cm X atEOF).2.1,
         (charmapEncode cm X atEOF).2.2)
      | none => ([], 0, some (TErr.repertoire cm.sub)) := by
  by_cases h1 : r < 0x80
  · have he : utf8EncodeRune r = [r] := by
      unfold utf8EncodeRune
      rw [if_pos h1]
    rw [he]
    rw [charmapEncode.eq_def]
    simp only [List.cons_append, List.length_cons, List.length_nil]
    rw [dif_neg (by simp)]
    simp only [List.headD_cons, if_pos h1, List.tail_cons]
    cases hcr : cm.encodeRune r with
    | some c => simp
    | none => simp
  · have hd := utf8DecodeRune_encode r X h
    have hlen := utf8EncodeRune_length_ge2 r h1 h
    have hne : utf8EncodeRune r ++ X ≠ [] := by
      have := utf8EncodeRune_length_pos r
      intro hh
      rw [List.append_eq_nil] at hh
      rw [hh.1] at this
      simp at this
    rw [charmapEncode.eq_def]
    rw [dif_neg hne]
    rw [if_neg (utf8EncodeRune_head_ge r h1 h X)]
    rw [hd]
    rw [if_neg (by omega)]
    rw [List.drop_left]

/-- The charset encodes every ASCII byte as itself (true of every charset
this package resolves; the JSON escapes it emits are pure ASCII). -/
def AsciiCompat (cm : Charmap) : Prop := ∀ b : Nat, b < 0x80 → cm.encodeRune b = some b

/-- A single-byte encoder passes pure-ASCII representable input through
unchanged. -/
theorem charmapEncode_ascii (cm : Charmap) (hA : AsciiCompat cm) (s : List Nat)
    (hs : ∀ b ∈ s, b < 0x80) (atEOF : Bool) :
    charmapEncode cm s atEOF = (s, s.length, none) := by
  induction s with
  | nil => exact charmapEncode_nil cm atEOF
  | cons b bs ih =>
    have hb : b < 0x80 := hs b (by simp)
    have hval : ValidRune b := ⟨by omega, by omega⟩
    have henc : utf8EncodeRune b = [b] := by
      unfold utf8EncodeRune
      rw [if_pos hb]
    have h0 := charmapEncode_rune cm b bs atEOF hval
    rw [hA b hb] at h0
    rw [henc] at h0
    simp only [List.cons_append, List.nil_append, List.length_cons, List.length_nil] at h0
    rw [h0, ih (fun x hx => hs x (by simp [hx]))]
    simp [Nat.add_comm]

/-- Rune-level description of the JSON-safe transcoder's output over a
single-byte charset: representable code points map to their charset byte,
all others to the ASCII bytes of their JSON escape. -/
def transcodeSpec (cm : Charmap) (rs : List Nat) : List Nat :=
  rs.flatMap fun r =>
    match cm.encodeRune r with
    | some c => [c]
    | none => escBytes r

theorem transcodeSpec_nil (cm : Charmap) : transcodeSpec cm [] = [] := rfl

theorem transcodeSpec_cons (cm : Charmap) (r : Nat) (rs : List Nat) :
    transcodeSpec cm (r :: rs) =
      (match cm.encodeRune r with
        | some c => [c]
        | none => escBytes r) ++ transcodeSpec cm rs := rfl

/-- Prepending a charset-representable rune prepends its charset byte to
whatever the transcoder does with the rest. -/
theorem jsonTransform_charmap_cons_rep (cm : Charmap) (r c : Nat) (B : List Nat)
    (atEOF : Bool) (hr : ValidRune r) (hc : cm.encodeRune r = some c) :
    jsonTransform (charmapEncode cm) (utf8EncodeRune r ++ B) atEOF =
      (c :: (jsonTransform (charmapEncode cm) B atEOF).1,
       (utf8EncodeRune r).length + (jsonTransform (charmapEncode cm) B atEOF).2.1,
       (jsonTransform (charmapEncode cm) B atEOF).2.2) := by
  have h0 := charmapEncode_rune cm r B atEOF hr
  rw [hc] at h0
  rcases hB : charmapEncode cm B atEOF with ⟨o, n, oe⟩
  rw [hB] at h0
  have hdrop : (utf8EncodeRune r ++ B).drop ((utf8EncodeRune r).length + n) = B.drop n :=
    List.drop_append n
  cases oe with
  | none =>
    rw [jsonTransform_ok _ _ _ _ _ h0, jsonTransform_ok _ _ _ _ _ hB]
  | some e =>
    cases e with
    | shortSrc =>
      rw [jsonTransform_err _ _ _ _ _ _ h0 (by intro b hb; cases hb),
        jsonTransform_err _ _ _ _ _ _ hB (by intro b hb; cases hb)]
    | shortDst =>
      rw [jsonTransform_err _ _ _ _ _ _ h0 (by intro b hb; cases hb),
        jsonTransform_err _ _ _ _ _ _ hB (by intro b hb; cases hb)]
    | custom m =>
      rw [jsonTransform_err _ _ _ _ _ _ h0 (by intro b hb; cases hb),
        jsonTransform_err _ _ _ _ _ _ hB (by intro b hb; cases hb)]
    | repertoire b =>
      by_cases hdec : (utf8DecodeRune (B.drop n)).1 = runeError
      · rw [jsonTransform_rep_shortSrc _ _ _ _ _ _ h0 (by rw [hdrop]; exact hdec),
          jsonTransform_rep_shortSrc _ _ _ _ _ _ hB hdec]
      · rcases hesc : charmapEncode cm (escBytes (utf8DecodeRune (B.drop n)).1) false
          with ⟨o2, n2, oe2⟩
        cases oe2 with
        | some e2 =>
          rw [jsonTransform_rep_escErr _ _ _ _ _ _ _ _ _ h0 (by rw [hdrop]; exact hdec)
              (by rw [hdrop]; exact hesc),
            jsonTransform_rep_escErr _ _ _ _ _ _ _ _ _ hB hdec hesc]
        | none =>
          rw [jsonTransform_rep_step _ _ _ _ _ _ _ _ h0 (by rw [hdrop]; exact hdec)
              (by rw [hdrop]; exact hesc),
            jsonTransform_rep_step _ _ _ _ _ _ _ _ hB hdec hesc]
          simp only [hdrop, Prod.mk.injEq]
          exact ⟨by simp, by omega, trivial⟩

/-- Prepending a rune outside the charset's repertoire (other than U+FFFD)
prepends the ASCII bytes of its JSON escape. -/
theorem jsonTransform_charmap_cons_esc (cm : Charmap) (r : Nat) (B : List Nat)
    (atEOF : Bool) (hA : AsciiCompat cm) (hr : ValidRune r) (hc : cm.encodeRune r = none)
    (hfe : r ≠ runeError) :
    jsonTransform (charmapEncode cm) (utf8EncodeRune r ++ B) atEOF =
      (escBytes r ++ (jsonTransform (charmapEncode cm) B atEOF).1,
       (utf8EncodeRune r).length + (jsonTransform (charmapEncode cm) B atEOF).2.1,
       (jsonTransform (charmapEncode cm) B atEOF).2.2) := by
  have h0 := charmapEncode_rune cm r B atEOF hr
  rw [hc] at h0
  have hd := utf8DecodeRune_encode r B hr
  have hdrop0 : (utf8EncodeRune r ++ B).drop 0 = utf8EncodeRune r ++ B := rfl
  have hdec : (utf8DecodeRune ((utf8EncodeRune r ++ B).drop 0)).1 ≠ runeError := by
    rw [hdrop0, hd]
    exact hfe
  have hdec1 : (utf8DecodeRune ((utf8EncodeRune r ++ B).drop 0)).1 = r := by
    rw [hdrop0, hd]
  have hesc : charmapEncode cm (escBytes (utf8DecodeRune ((utf8EncodeRune r ++ B).drop 0)).1)
      false = (escBytes r, (escBytes r).length, none) := by
    rw [hdec1]
    exact charmapEncode_ascii cm hA _ (escBytes_ascii r) false
  rw [jsonTransform_rep_step _ _ _ _ _ _ _ _ h0 hdec hesc]
  have hdec2 : (utf8DecodeRune ((utf8EncodeRune r ++ B).drop 0)).2 = (utf8EncodeRune r).length := by
    rw [hdrop0, hd]
  rw [hdec2, hdrop0, List.drop_left]
  simp

/-- Characterization of the JSON-safe transcoder over a single-byte
charset: on the UTF-8 encoding of any string of valid scalar values none
of which is an unrepresentable U+FFFD, it succeeds, consuming everything
and producing exactly the rune-by-rune transcoding (native charset byte,
or JSON escape). -/
theorem jsonTransform_charmap (cm : Charmap) (hA : AsciiCompat cm) (rs : List Nat)
    (atEOF : Bool)
    (h : ∀ r ∈ rs, ValidRune r ∧ (cm.encodeRune r = none → r ≠ runeError)) :
    jsonTransform (charmapEncode cm) (utf8EncodeRunes rs) atEOF =
      (transcodeSpec cm rs, (utf8EncodeRunes rs).length, none) := by
  induction rs with
  | nil =>
    rw [utf8EncodeRunes_nil, transcodeSpec_nil]
    exact jsonTransform_ok _ _ _ _ _ (charmapEncode_nil cm atEOF)
  | cons r rs ih =>
    have hr := (h r (by simp)).1
    have ihh := ih (fun x hx => h x (by simp [hx]))
    rw [utf8EncodeRunes_cons, transcodeSpec_cons]
    cases hc : cm.encodeRune r with
    | some c =>
      rw [jsonTransform_charmap_cons_rep cm r c _ atEOF hr hc, ihh]
      simp [utf8EncodeRunes_cons]
    | none =>
      have hfe : r ≠ runeError := (h r (by simp)).2 hc
      rw [jsonTransform_charmap_cons_esc cm r _ atEOF hA hr hc hfe, ihh]
      simp [utf8EncodeRunes_cons]

/-- The underlying encoder encodes every JSON escape buffer fully and
without error (true of the package's charsets: escapes are pure ASCII). -/
def EncodesEscapes (E : List Nat → Bool → List Nat × Nat × Option TErr) : Prop :=
  ∀ r : Nat, E (escBytes r) false = (escBytes r, (escBytes r).length, none)

theorem charmapEncode_encodesEscapes (cm : Charmap) (hA : AsciiCompat cm) :
    EncodesEscapes (charmapEncode cm) := fun r =>
  charmapEncode_ascii cm hA _ (escBytes_ascii r) false

/-- The transcoder never surfaces a repertoire (replacement) error itself,
whatever the input, provided the underlying encoder can encode the ASCII
escape buffers. -/
theorem jsonTransform_no_repertoire (E : List Nat → Bool → List Nat × Nat × Option TErr)
    (hE : EncodesEscapes E) (src : List Nat) (atEOF : Bool) (b : Nat) :
    (jsonTransform E src atEOF).2.2 ≠ some (TErr.repertoire b) := by
  suffices H : ∀ (N : Nat) (src : List Nat) (atEOF : Bool) (b : Nat), src.length ≤ N →
      (jsonTransform E src atEOF).2.2 ≠ some (TErr.repertoire b) from
    H src.length src atEOF b le_rfl
  intro N
  induction N using Nat.strong_induction_on with
  | _ N IH =>
  intro src atEOF b hlen
  rcases hsp : E src atEOF with ⟨o, n, oe⟩
  cases oe with
  | none =>
    rw [jsonTransform_ok _ _ _ _ _ hsp]
    simp
  | some e =>
    cases e with
    | shortSrc =>
      rw [jsonTransform_err _ _ _ _ _ _ hsp (by intro x hx; cases hx)]
      simp
    | shortDst =>
      rw [jsonTransform_err _ _ _ _ _ _ hsp (by intro x hx; cases hx)]
      simp
    | custom m =>
      rw [jsonTransform_err _ _ _ _ _ _ hsp (by intro x hx; cases hx)]
      simp
    | repertoire bb =>
      by_cases hdec : (utf8DecodeRune (src.drop n)).1 = runeError
      · rw [jsonTransform_rep_shortSrc _ _ _ _ _ _ hsp hdec]
        simp
      · have hesc := hE (utf8DecodeRune (src.drop n)).1
        rw [jsonTransform_rep_step _ _ _ _ _ _ _ _ hsp hdec hesc]
        have h1 : src.drop n ≠ [] := fun hh => hdec (by rw [hh]; rfl)
        have h2 := utf8DecodeRune_len_pos' _ h1
        have h3 : ¬(src.length ≤ n) := fun hle => h1 (List.drop_eq_nil_of_le hle)
        exact IH ((src.drop n).drop (utf8DecodeRune (src.drop n)).2).length
          (by simp only [List.length_drop]; omega) _ _ _ le_rfl

/-! ## The concrete charsets the development resolves
(models of the x/text encodings reachable through `ianaindex.MIME`). -/

/-- US-ASCII (the `asciiEnc` entry of `ianaindex`): code points below 0x80
encode as themselves, everything else is out of repertoire (substitution
byte 0x1A); undecodable bytes decode to U+FFFD. -/
def asciiCm : Charmap where
  encodeRune := fun r => if r < 0x80 then some r else none
  decodeByte := fun b => if b < 0x80 then b else runeError
  sub := 0x1A

/-- ISO-8859-1 (`charmap.ISO8859_1`): code points below 0x100 encode as
themselves, everything else is out of repertoire. -/
def latin1Cm : Charmap where
  encodeRune := fun r => if r < 0x100 then some r else none
  decodeByte := fun b => b
  sub := 0x1A

theorem asciiCm_compat : AsciiCompat asciiCm := by
  intro b hb
  simp [asciiCm, hb]

theorem latin1Cm_compat : AsciiCompat latin1Cm := by
  intro b hb
  simp [latin1Cm]
  omega

/-- The charset byte of a representable rune decodes back to that rune. -/
def DecodesEncoded (cm : Charmap) : Prop :=
  ∀ r c : Nat, cm.encodeRune r = some c → cm.decodeByte c = r

theorem asciiCm_decodes : DecodesEncoded asciiCm := by
  intro r c h
  simp only [asciiCm] at h ⊢
  by_cases h1 : r < 0x80
  · rw [if_pos h1] at h
    cases h
    simp [h1]
  · rw [if_neg h1] at h
    cases h

theorem latin1Cm_decodes : DecodesEncoded latin1Cm := by
  intro r c h
  simp only [latin1Cm] at h ⊢
  by_cases h1 : r < 0x100
  · rw [if_pos h1] at h
    cases h
    rfl
  · rw [if_neg h1] at h
    cases h

/-! ## Model of JSON values and of the external `encoding/json` collaborator.

Modelled from the spec: the repository delegates JSON serialization and
parsing to a "conventional structural JSON" library (spec section 6); the
library itself is not part of src/.  Values are modelled structurally;
numbers are modelled as integers (floating-point formatting is outside
the scope of this embedding); strings are code-point lists.  The
serializer is compact (no whitespace), escapes `"`, `\` and control
characters, and is parameterised by a predicate `P` selecting the code
points emitted literally — `fun _ => true` is the plain serializer, other
predicates describe the text after charset transcoding has replaced the
non-representable code points by their JSON escapes. -/

inductive JValue where
  | null
  | bool (b : Bool)
  | num (n : Int)
  | str (s : List Nat)
  | arr (elems : List JValue)
  | obj (members : List (List Nat × JValue))
deriving Repr

/-- Decimal digits of `n`, most significant first. -/
def natDigits (n : Nat) : List Nat :=
  if n < 10 then [48 + n]
  else natDigits (n / 10) ++ [48 + n % 10]
termination_by n
decreasing_by
  exact Nat.div_lt_self (by omega) (by omega)

/-- Decimal representation of an integer, as code points. -/
def intRunes (n : Int) : List Nat :=
  if n < 0 then 45 :: natDigits n.natAbs else natDigits n.natAbs

/-- Serialize one string code point: JSON-escape the quote, the backslash
and control characters; emit the code points satisfying `P` literally and
JSON-escape the rest. -/
def escChar (P : Nat → Bool) (r : Nat) : List Nat :=
  if r = 34 then [92, 34]
  else if r = 92 then [92, 92]
  else if r < 32 then escape r
  else if P r then [r]
  else escBytes r

/-- Serialized string literal: quote, escaped content, quote. -/
def serStr (P : Nat → Bool) (s : List Nat) : List Nat :=
  34 :: (s.flatMap (escChar P) ++ [34])

mutual

/-- The JSON serialization of a value (compact form), with `P` selecting
the string code points written literally. -/
def serializeWith (P : Nat → Bool) : JValue → List Nat
  | JValue.null => [110, 117, 108, 108]
  | JValue.bool true => [116, 114, 117, 101]
  | JValue.bool false => [102, 97, 108, 115, 101]
  | JValue.num n => intRunes n
  | JValue.str s => serStr P s
  | JValue.arr es => 91 :: (serElemsWith P es ++ [93])
  | JValue.obj ms => 123 :: (serMembersWith P ms ++ [125])

/-- Comma-separated serialization of array elements. -/
def serElemsWith (P : Nat → Bool) : List JValue → List Nat
  | [] => []
  | [v] => serializeWith P v
  | v :: w :: vs => serializeWith P v ++ 44 :: serElemsWith P (w :: vs)

/-- Comma-separated serialization of object members (`"key":value`). -/
def serMembersWith (P : Nat → Bool) : List (List Nat × JValue) → List Nat
  | [] => []
  | [(k, v)] => serStr P k ++ 58 :: serializeWith P v
  | (k, v) :: m :: ms => serStr P k ++ 58 :: serializeWith P v ++ 44 :: serMembersWith P (m :: ms)

end

/-- A string code point the embedding tracks precisely: a Unicode scalar
value other than U+FFFD (strings containing U+FFFD trip the transcoder
bug analysed below, and Go's `json.Marshal` coerces invalid UTF-8 to
U+FFFD before the transcoder ever runs). -/
def cleanRune (r : Nat) : Bool := decide (ValidRune r) && r != runeError

mutual

/-- All string code points (values and keys) of the value are clean. -/
def jcleanV : JValue → Bool
  | JValue.null => true
  | JValue.bool _ => true
  | JValue.num _ => true
  | JValue.str s => s.all cleanRune
  | JValue.arr es => jcleanL es
  | JValue.obj ms => jcleanM ms

def jcleanL : List JValue → Bool
  | [] => true
  | v :: vs => jcleanV v && jcleanL vs

def jcleanM : List (List Nat × JValue) → Bool
  | [] => true
  | (k, v) :: ms => k.all cleanRune && jcleanV v && jcleanM ms

end

/-! ### The JSON parser (model of `encoding/json` decoding). -/

def isDigit (c : Nat) : Bool := 48 ≤ c && c ≤ 57

/-- Split off the leading run of decimal digits. -/
def takeDigits : List Nat → List Nat × List Nat
  | [] => ([], [])
  | c :: rest =>
    if isDigit c then
      ((takeDigits rest).1.cons c, (takeDigits rest).2)
    else ([], c :: rest)

/-- Fold a digit run onto an accumulator. -/
def digitsVal (acc : Nat) : List Nat → Nat
  | [] => acc
  | d :: ds => digitsVal (acc * 10 + (d - 48)) ds

/-- Parse a JSON number (integral grammar: optional minus, digit run). -/
def parseNumber (s : List Nat) : Option (JValue × List Nat) :=
  if s.headD 0 = 45 then
    if (takeDigits s.tail).1 = [] then none
    else some (JValue.num (-(digitsVal 0 (takeDigits s.tail).1 : Int)), (takeDigits s.tail).2)
  else
    if (takeDigits s).1 = [] then none
    else some (JValue.num (digitsVal 0 (takeDigits s).1), (takeDigits s).2)

def hexVal (c : Nat) : Option Nat :=
  if 48 ≤ c ∧ c ≤ 57 then some (c - 48)
  else if 97 ≤ c ∧ c ≤ 102 then some (c - 87)
  else if 65 ≤ c ∧ c ≤ 70 then some (c - 55)
  else none

def hex4Val (a b c d : Nat) : Option Nat :=
  match hexVal a, hexVal b, hexVal c, hexVal d with
  | some x, some y, some z, some w => some (x * 0x1000 + y * 0x100 + z * 0x10 + w)
  | _, _, _, _ => none

/-- The single-character JSON escapes. -/
def escSingle (e : Nat) : Option Nat :=
  if e = 34 then some 34
  else if e = 92 then some 92
  else if e = 47 then some 47
  else if e = 98 then some 8
  else if e = 102 then some 12
  else if e = 110 then some 10
  else if e = 114 then some 13
  else if e = 116 then some 9
  else none

mutual

/-- Parse a JSON string body after the opening quote, returning the
content code points and the input after the closing quote.  `\uXXXX`
escapes are decoded, surrogate pairs recombined, and unpaired surrogates
become U+FFFD, as Go's `encoding/json` unquoting does; raw control
characters are rejected. -/
def parseStringBody : List Nat → Option (List Nat × List Nat)
  | [] => none
  | c :: rest =>
    if c = 34 then some ([], rest)
    else if c = 92 then parseEscaped rest
    else if c < 32 then none
    else (parseStringBody rest).map (fun p => (c :: p.1, p.2))
termination_by s => (s.length, 0)
decreasing_by all_goals
  (first
    | (apply Prod.Lex.right; omega)
    | (apply Prod.Lex.left; simp only [List.length_cons]; omega))

/-- Parse the remainder of a backslash escape inside a string body. -/
def parseEscaped : List Nat → Option (List Nat × List Nat)
  | [] => none
  | e :: r1 =>
    if e = 117 then parseUEsc r1
    else
      match escSingle e with
      | some ch => (parseStringBody r1).map (fun p => (ch :: p.1, p.2))
      | none => none
termination_by r => (r.length, 1)
decreasing_by all_goals
  (first
    | (apply Prod.Lex.right; omega)
    | (apply Prod.Lex.left; simp only [List.length_cons]; omega))

/-- Parse the four hex digits of a `\u` escape (and a following low
surrogate if the value is a high surrogate). -/
def parseUEsc : List Nat → Option (List Nat × List Nat)
  | h1 :: h2 :: h3 :: h4 :: r2 =>
    match hex4Val h1 h2 h3 h4 with
    | none => none
    | some u =>
      if 0xD800 ≤ u ∧ u ≤ 0xDBFF then parseLowSur u r2
      else if 0xDC00 ≤ u ∧ u ≤ 0xDFFF then
        (parseStringBody r2).map (fun p => (runeError :: p.1, p.2))
      else (parseStringBody r2).map (fun p => (u :: p.1, p.2))
  | _ => none
termination_by r => (r.length, 1)
decreasing_by all_goals
  (first
    | (apply Prod.Lex.right; omega)
    | (apply Prod.Lex.left; simp only [List.length_cons]; omega))

/-- After a high surrogate `\u` escape: combine with a following low
surrogate escape, or emit U+FFFD and reparse from the current position
(Go's lenient unpaired-surrogate behaviour). -/
def parseLowSur (u : Nat) : List Nat → Option (List Nat × List Nat)
  | 92 :: 117 :: g1 :: g2 :: g3 :: g4 :: r3 =>
    match hex4Val g1 g2 g3 g4 with
    | some u2 =>
      if 0xDC00 ≤ u2 ∧ u2 ≤ 0xDFFF then
        (parseStringBody r3).map
          (fun p => ((0x10000 + (u - 0xD800) * 0x400 + (u2 - 0xDC00)) :: p.1, p.2))
      else
        (parseStringBody (92 :: 117 :: g1 :: g2 :: g3 :: g4 :: r3)).map
          (fun p => (runeError :: p.1, p.2))
    | none =>
      (parseStringBody (92 :: 117 :: g1 :: g2 :: g3 :: g4 :: r3)).map
        (fun p => (runeError :: p.1, p.2))
  | r2 => (parseStringBody r2).map (fun p => (runeError :: p.1, p.2))
termination_by r => (r.length, 1)
decreasing_by all_goals
  (first
    | (apply Prod.Lex.right; omega)
    | (apply Prod.Lex.left; simp only [List.length_cons]; omega))

end

def isWsChar (c : Nat) : Bool := c = 32 || c = 9 || c = 10 || c = 13

def skipWs : List Nat → List Nat
  | [] => []
  | c :: rest => if isWsChar c then skipWs rest else c :: rest

mutual

/-- Parse one JSON value (fuel-indexed recursive descent). -/
def parseValue : Nat → List Nat → Option (JValue × List Nat)
  | 0, _ => none
  | f + 1, s =>
    match skipWs s with
    | [] => none
    | c :: r =>
      if c = 123 then
        if (skipWs r).headD 0 = 125 then some (JValue.obj [], (skipWs r).tail)
        else (parseMembers f (skipWs r)).map (fun p => (JValue.obj p.1, p.2))
      else if c = 91 then
        if (skipWs r).headD 0 = 93 then some (JValue.arr [], (skipWs r).tail)
        else (parseElems f (skipWs r)).map (fun p => (JValue.arr p.1, p.2))
      else if c = 34 then
        (parseStringBody r).map (fun p => (JValue.str p.1, p.2))
      else if c = 110 then
        if r.take 3 = [117, 108, 108] then some (JValue.null, r.drop 3) else none
      else if c = 116 then
        if r.take 3 = [114, 117, 101] then some (JValue.bool true, r.drop 3) else none
      else if c = 102 then
        if r.take 4 = [97, 108, 115, 101] then some (JValue.bool false, r.drop 4) else none
      else parseNumber (c :: r)

/-- Parse one or more comma-separated array elements and the closing
bracket. -/
def parseElems : Nat → List Nat → Option (List JValue × List Nat)
  | 0, _ => none
  | f + 1, s =>
    (parseValue f s).bind fun p =>
      if (skipWs p.2).headD 0 = 44 then
        (parseElems f (skipWs p.2).tail).map (fun q => (p.1 :: q.1, q.2))
      else if (skipWs p.2).headD 0 = 93 then some ([p.1], (skipWs p.2).tail)
      else none

/-- Parse one or more comma-separated object members and the closing
brace. -/
def parseMembers : Nat → List Nat → Option (List (List Nat × JValue) × List Nat)
  | 0, _ => none
  | f + 1, s =>
    if (skipWs s).headD 0 = 34 then
      (parseStringBody (skipWs s).tail).bind fun pk =>
        if (skipWs pk.2).headD 0 = 58 then
          (parseValue f (skipWs pk.2).tail).bind fun pv =>
            if (skipWs pv.2).headD 0 = 44 then
              (parseMembers f (skipWs pv.2).tail).map (fun q => ((pk.1, pv.1) :: q.1, q.2))
            else if (skipWs pv.2).headD 0 = 125 then some ([(pk.1, pv.1)], (skipWs pv.2).tail)
            else none
        else none
    else none

end

/-- Model of `json.Unmarshal`'s top level: one value, then only
whitespace. -/
def parseTop (s : List Nat) : Option JValue :=
  match parseValue (s.length + 1) s with
  | none => none
  | some (v, rest) => if skipWs rest = [] then some v else none

/-! ### Completeness of the parser on serializer output. -/

theorem hexVal_hexDigit (d : Nat) (h : d < 16) : hexVal (hexDigit d) = some d := by
  unfold hexVal hexDigit
  split_ifs <;> first | (congr 1; omega) | omega

theorem hex4Val_escape (r : Nat) (h : r < 0x10000) :
    hex4Val (hexDigit (r / 0x1000)) (hexDigit (r / 0x100 % 16)) (hexDigit (r / 0x10 % 16))
      (hexDigit (r % 16)) = some r := by
  unfold hex4Val
  rw [hexVal_hexDigit _ (by omega), hexVal_hexDigit _ (by omega),
    hexVal_hexDigit _ (by omega), hexVal_hexDigit _ (by omega)]
  simp only [Option.some.injEq]
  omega

theorem skipWs_not (c : Nat) (l : List Nat) (h : isWsChar c = false) :
    skipWs (c :: l) = c :: l := by
  rw [skipWs]
  simp [h]

/-- Whether the remaining input may legally follow a serialized number:
empty, or starting with a JSON delimiter. -/
def delimOk : List Nat → Bool
  | [] => true
  | c :: _ => c == 44 || c == 93 || c == 125

theorem psb_quote (rest : List Nat) : parseStringBody (34 :: rest) = some ([], rest) := by
  rw [parseStringBody.eq_def]
  simp

theorem psb_literal (c : Nat) (rest : List Nat) (h34 : c ≠ 34) (h92 : c ≠ 92)
    (hctl : ¬c < 32) :
    parseStringBody (c :: rest) = (parseStringBody rest).map (fun p => (c :: p.1, p.2)) := by
  rw [parseStringBody.eq_def]
  simp only [if_neg h34, if_neg h92, if_neg hctl]

theorem psb_esc (e : Nat) (r1 : List Nat) :
    parseStringBody (92 :: e :: r1) = parseEscaped (e :: r1) := by
  rw [parseStringBody.eq_def]
  simp only [if_neg (by omega : ¬(92 : Nat) = 34), if_pos rfl]
  simp

theorem psb_esc_single (e ch : Nat) (r1 : List Nat) (hu : e ≠ 117)
    (hch : escSingle e = some ch) :
    parseStringBody (92 :: e :: r1) = (parseStringBody r1).map (fun p => (ch :: p.1, p.2)) := by
  rw [psb_esc, parseEscaped.eq_def]
  simp only [if_neg hu, hch]

theorem psb_esc_u (h1 h2 h3 h4 u : Nat) (r2 : List Nat)
    (hhex : hex4Val h1 h2 h3 h4 = some u)
    (hns1 : ¬(0xD800 ≤ u ∧ u ≤ 0xDBFF)) (hns2 : ¬(0xDC00 ≤ u ∧ u ≤ 0xDFFF)) :
    parseStringBody (92 :: 117 :: h1 :: h2 :: h3 :: h4 :: r2) =
      (parseStringBody r2).map (fun p => (u :: p.1, p.2)) := by
  rw [psb_esc, parseEscaped.eq_def]
  simp only [if_pos rfl, if_true]
  rw [parseUEsc.eq_def]
  simp only [hhex]
  rw [if_neg hns1, if_neg hns2]

theorem psb_esc_u_pair (h1 h2 h3 h4 g1 g2 g3 g4 u u2 : Nat) (r3 : List Nat)
    (hhex : hex4Val h1 h2 h3 h4 = some u) (hhi : 0xD800 ≤ u ∧ u ≤ 0xDBFF)
    (hhex2 : hex4Val g1 g2 g3 g4 = some u2) (hlo : 0xDC00 ≤ u2 ∧ u2 ≤ 0xDFFF) :
    parseStringBody (92 :: 117 :: h1 :: h2 :: h3 :: h4 :: 92 :: 117 ::
        g1 :: g2 :: g3 :: g4 :: r3) =
      (parseStringBody r3).map
        (fun p => ((0x10000 + (u - 0xD800) * 0x400 + (u2 - 0xDC00)) :: p.1, p.2)) := by
  rw [psb_esc, parseEscaped.eq_def]
  simp only [if_pos rfl, if_true]
  rw [parseUEsc.eq_def]
  simp only [hhex]
  rw [if_pos hhi, parseLowSur.eq_def]
  simp only [hhex2, if_pos hlo]

/-- Parsing a string body over serialized-and-possibly-transcoded content
recovers the content. -/
theorem parseStringBody_complete (s : List Nat) (P : Nat → Bool) (rest : List Nat)
    (h : s.all cleanRune) :
    parseStringBody (s.flatMap (escChar P) ++ 34 :: rest) = some (s, rest) := by
  induction s with
  | nil =>
    rw [List.flatMap_nil, List.nil_append, psb_quote]
  | cons r s ih =>
    have hcl' : cleanRune r = true ∧ s.all cleanRune = true := by simpa using h
    have ihh := ih hcl'.2
    have hcl := hcl'.1
    simp only [cleanRune, Bool.and_eq_true, decide_eq_true_eq, bne_iff_ne, ne_eq,
      ValidRune] at hcl
    obtain ⟨⟨hlt, hsur⟩, hfe⟩ := hcl
    rw [List.flatMap_cons, List.append_assoc]
    by_cases h34 : r = 34
    · subst h34
      rw [escChar, if_pos rfl]
      rw [show ([92, 34] : List Nat) ++ (s.flatMap (escChar P) ++ 34 :: rest) =
            92 :: 34 :: (s.flatMap (escChar P) ++ 34 :: rest) from rfl]
      rw [psb_esc_single 34 34 _ (by omega) (by decide), ihh]
      rfl
    · by_cases h92 : r = 92
      · subst h92
        rw [escChar, if_neg (by omega), if_pos rfl]
        rw [show ([92, 92] : List Nat) ++ (s.flatMap (escChar P) ++ 34 :: rest) =
              92 :: 92 :: (s.flatMap (escChar P) ++ 34 :: rest) from rfl]
        rw [psb_esc_single 92 92 _ (by omega) (by decide), ihh]
        rfl
      · by_cases hctl : r < 32
        · rw [escChar, if_neg h34, if_neg h92, if_pos hctl]
          simp only [escape, List.cons_append, List.nil_append]
          rw [psb_esc_u _ _ _ _ r _ (hex4Val_escape r (by omega)) (by omega) (by omega), ihh]
          rfl
        · by_cases hP : P r
          · rw [escChar, if_neg h34, if_neg h92, if_neg hctl, if_pos hP]
            simp only [List.cons_append, List.nil_append]
            rw [psb_literal r _ h34 h92 hctl, ihh]
            rfl
          · rw [escChar, if_neg h34, if_neg h92, if_neg hctl, if_neg hP]
            by_cases hbig : r < 0x10000
            · rw [escBytes, if_pos hbig]
              simp only [escape, List.cons_append, List.nil_append]
              rw [psb_esc_u _ _ _ _ r _ (hex4Val_escape r hbig) (by omega) (by omega), ihh]
              rfl
            · have hhi : (utf16EncodeRune r).1 = (r - 0x10000) / 0x400 + 0xD800 := by
                unfold utf16EncodeRune
                rw [if_neg (by omega)]
              have hlo : (utf16EncodeRune r).2 = (r - 0x10000) % 0x400 + 0xDC00 := by
                unfold utf16EncodeRune
                rw [if_neg (by omega)]
              rw [escBytes, if_neg hbig, hhi, hlo]
              simp only [escape, List.cons_append, List.nil_append, List.append_assoc]
              rw [psb_esc_u_pair _ _ _ _ _ _ _ _ _ _ _
                  (hex4Val_escape _ (by omega)) (by omega)
                  (hex4Val_escape _ (by omega)) (by omega), ihh]
              have hcomb : 0x10000 + ((r - 0x10000) / 0x400 + 0xD800 - 0xD800) * 0x400 +
                  ((r - 0x10000) % 0x400 + 0xDC00 - 0xDC00) = r := by omega
              simp only [hcomb]
              rfl

theorem natDigits_ne_nil (n : Nat) : natDigits n ≠ [] := by
  rw [natDigits.eq_def]
  split_ifs <;> simp

theorem natDigits_all_digits (n : Nat) : ∀ d ∈ natDigits n, isDigit d = true := by
  induction n using Nat.strong_induction_on with
  | _ n IH =>
  rw [natDigits.eq_def]
  split_ifs with h
  · intro d hd
    simp only [List.mem_singleton] at hd
    subst hd
    simp only [isDigit, Bool.and_eq_true, decide_eq_true_eq]
    omega
  · intro d hd
    rcases List.mem_append.mp hd with h1 | h1
    · exact IH (n / 10) (Nat.div_lt_self (by omega) (by omega)) d h1
    · simp only [List.mem_singleton] at h1
      subst h1
      simp only [isDigit, Bool.and_eq_true, decide_eq_true_eq]
      omega

theorem digitsVal_nil (acc : Nat) : digitsVal acc [] = acc := rfl

theorem digitsVal_cons (acc d : Nat) (ds : List Nat) :
    digitsVal acc (d :: ds) = digitsVal (acc * 10 + (d - 48)) ds := rfl

theorem digitsVal_append (acc : Nat) (xs ys : List Nat) :
    digitsVal acc (xs ++ ys) = digitsVal (digitsVal acc xs) ys := by
  induction xs generalizing acc with
  | nil => rfl
  | cons d ds ih =>
    rw [List.cons_append, digitsVal_cons, digitsVal_cons, ih]

theorem digitsVal_natDigits (n : Nat) :
    ∀ acc : Nat, digitsVal acc (natDigits n) = acc * 10 ^ (natDigits n).length + n := by
  induction n using Nat.strong_induction_on with
  | _ n IH =>
  intro acc
  rw [natDigits.eq_def]
  split_ifs with h
  · rw [digitsVal_cons, digitsVal_nil]
    simp only [List.length_singleton]
    omega
  · have hlt := Nat.div_lt_self (show 0 < n by omega) (show 1 < 10 by omega)
    rw [digitsVal_append, IH (n / 10) hlt acc, digitsVal_cons, digitsVal_nil]
    simp only [List.length_append, List.length_singleton]
    have hpow : 10 ^ ((natDigits (n / 10)).length + 1) = 10 ^ (natDigits (n / 10)).length * 10 := by
      rw [pow_succ]
    rw [hpow]
    have := Nat.div_add_mod n 10
    ring_nf
    omega

/-- The input after a serialized number may not begin with a digit. -/
def noDigitHead : List Nat → Bool
  | [] => true
  | c :: _ => !isDigit c

theorem takeDigits_spec (ds rest : List Nat) (hds : ∀ d ∈ ds, isDigit d = true)
    (hrest : noDigitHead rest = true) :
    takeDigits (ds ++ rest) = (ds, rest) := by
  induction ds with
  | nil =>
    cases rest with
    | nil => rfl
    | cons c t =>
      simp only [noDigitHead, Bool.not_eq_true'] at hrest
      rw [List.nil_append, takeDigits]
      simp [hrest]
  | cons d ds ih =>
    have hd : isDigit d = true := hds d (by simp)
    rw [List.cons_append, takeDigits]
    simp only [hd, if_true, ih (fun x hx => hds x (by simp [hx])) ]

theorem intRunes_all_digits_of_nonneg (n : Int) (h : ¬n < 0) :
    ∀ d ∈ intRunes n, isDigit d = true := by
  rw [intRunes, if_neg h]
  exact natDigits_all_digits n.natAbs

/-- Parsing a serialized integer recovers it, provided the following
input does not begin with a digit. -/
theorem parseNumber_complete (n : Int) (rest : List Nat) (hnd : noDigitHead rest = true) :
    parseNumber (intRunes n ++ rest) = some (JValue.num n, rest) := by
  by_cases hneg : n < 0
  · rw [intRunes, if_pos hneg, List.cons_append, parseNumber]
    simp only [List.headD_cons, List.tail_cons, if_pos rfl]
    rw [takeDigits_spec _ _ (natDigits_all_digits n.natAbs) hnd]
    simp only [natDigits_ne_nil n.natAbs, if_neg (natDigits_ne_nil n.natAbs)]
    rw [digitsVal_natDigits]
    simp only [Nat.zero_mul, Nat.zero_add, Option.some.injEq, Prod.mk.injEq, and_true,
      JValue.num.injEq]
    simp only [if_true, if_false, Option.some.injEq, Prod.mk.injEq, and_true,
      JValue.num.injEq]
    omega
  · have hne := natDigits_ne_nil n.natAbs
    rcases hnd2 : natDigits n.natAbs with _ | ⟨d, ds⟩
    · exact absurd hnd2 hne
    · have hd : isDigit d = true := by
        have := natDigits_all_digits n.natAbs d (by rw [hnd2]; simp)
        exact this
      rw [intRunes, if_neg hneg, hnd2, List.cons_append, parseNumber]
      have hd45 : ¬d = 45 := by
        simp only [isDigit, Bool.and_eq_true, decide_eq_true_eq] at hd
        omega
      simp only [List.headD_cons, if_neg hd45]
      rw [← List.cons_append, ← hnd2,
        takeDigits_spec _ _ (natDigits_all_digits n.natAbs) hnd]
      simp only [if_neg hne]
      rw [digitsVal_natDigits]
      simp only [Nat.zero_mul, Nat.zero_add, Option.some.injEq, Prod.mk.injEq, and_true,
        JValue.num.injEq]
      omega

/-- The first code point of any serialized value: a letter of
null/true/false, a minus sign, a digit, a quote, or an open bracket. -/
theorem serializeWith_head (P : Nat → Bool) (v : JValue) :
    ∃ c t, serializeWith P v = c :: t ∧
      (c = 110 ∨ c = 116 ∨ c = 102 ∨ c = 45 ∨ isDigit c = true ∨ c = 34 ∨ c = 91 ∨ c = 123) := by
  cases v with
  | null => exact ⟨110, _, rfl, by simp⟩
  | bool b =>
    cases b with
    | true => exact ⟨116, _, rfl, by simp⟩
    | false => exact ⟨102, _, rfl, by simp⟩
  | num n =>
    by_cases hneg : n < 0
    · refine ⟨45, natDigits n.natAbs, ?_, by simp⟩
      rw [show serializeWith P (JValue.num n) = intRunes n from rfl, intRunes, if_pos hneg]
    · rcases hnd : natDigits n.natAbs with _ | ⟨d, ds⟩
      · exact absurd hnd (natDigits_ne_nil n.natAbs)
      · refine ⟨d, ds, ?_, ?_⟩
        · rw [show serializeWith P (JValue.num n) = intRunes n from rfl, intRunes,
            if_neg hneg, hnd]
        · have := natDigits_all_digits n.natAbs d (by rw [hnd]; simp)
          tauto
  | str s => exact ⟨34, _, rfl, by simp⟩
  | arr es => exact ⟨91, _, rfl, by simp⟩
  | obj ms => exact ⟨123, _, rfl, by simp⟩

mutual

/-- Fuel sufficient for `parseValue` to parse the serialization of `v`. -/
def needV : JValue → Nat
  | JValue.null => 1
  | JValue.bool _ => 1
  | JValue.num _ => 1
  | JValue.str _ => 1
  | JValue.arr [] => 1
  | JValue.arr (e :: es) => 1 + needL (e :: es)
  | JValue.obj [] => 1
  | JValue.obj (m :: ms) => 1 + needM (m :: ms)

def needL : List JValue → Nat
  | [] => 0
  | v :: vs => 1 + needV v + needL vs

def needM : List (List Nat × JValue) → Nat
  | [] => 0
  | (_, v) :: ms => 1 + needV v + needM ms

end

theorem needV_pos (v : JValue) : 1 ≤ needV v := by
  cases v with
  | arr es => cases es <;> simp [needV]
  | obj ms => cases ms <;> simp [needV]
  | _ => simp [needV]

theorem needL_pos (es : List JValue) (h : es ≠ []) : 1 ≤ needL es := by
  cases es with
  | nil => exact absurd rfl h
  | cons v vs =>
    simp only [needL]
    omega

theorem needM_pos (ms : List (List Nat × JValue)) (h : ms ≠ []) : 1 ≤ needM ms := by
  rcases ms with _ | ⟨⟨k, v⟩, ms⟩
  · exact absurd rfl h
  · simp only [needM]
    omega

theorem ser_null (P : Nat → Bool) : serializeWith P JValue.null = [110, 117, 108, 108] := rfl

theorem ser_true (P : Nat → Bool) : serializeWith P (JValue.bool true) = [116, 114, 117, 101] := rfl

theorem ser_false (P : Nat → Bool) :
    serializeWith P (JValue.bool false) = [102, 97, 108, 115, 101] := rfl

theorem ser_num (P : Nat → Bool) (n : Int) : serializeWith P (JValue.num n) = intRunes n := rfl

theorem ser_str (P : Nat → Bool) (s : List Nat) :
    serializeWith P (JValue.str s) = 34 :: (s.flatMap (escChar P) ++ [34]) := rfl

theorem ser_arr (P : Nat → Bool) (es : List JValue) :
    serializeWith P (JValue.arr es) = 91 :: (serElemsWith P es ++ [93]) := rfl

theorem ser_obj (P : Nat → Bool) (ms : List (List Nat × JValue)) :
    serializeWith P (JValue.obj ms) = 123 :: (serMembersWith P ms ++ [125]) := rfl

theorem serElems_one (P : Nat → Bool) (v : JValue) : serElemsWith P [v] = serializeWith P v := rfl

theorem serElems_cons2 (P : Nat → Bool) (v w : JValue) (vs : List JValue) :
    serElemsWith P (v :: w :: vs) = serializeWith P v ++ 44 :: serElemsWith P (w :: vs) := rfl

theorem serMembers_one (P : Nat → Bool) (k : List Nat) (v : JValue) :
    serMembersWith P [(k, v)] = serStr P k ++ 58 :: serializeWith P v := rfl

theorem serMembers_cons2 (P : Nat → Bool) (k : List Nat) (v : JValue)
    (m : List Nat × JValue) (ms : List (List Nat × JValue)) :
    serMembersWith P ((k, v) :: m :: ms) =
      serStr P k ++ 58 :: serializeWith P v ++ 44 :: serMembersWith P (m :: ms) := rfl

/-- The head of a serialized value is never whitespace nor a closing
delimiter. -/
theorem serializeWith_head_ne (P : Nat → Bool) (v : JValue) :
    ∃ c t, serializeWith P v = c :: t ∧ isWsChar c = false ∧ c ≠ 93 ∧ c ≠ 125 := by
  obtain ⟨c, t, hser, hc⟩ := serializeWith_head P v
  refine ⟨c, t, hser, ?_, ?_, ?_⟩ <;>
    (rcases hc with h | h | h | h | h | h | h | h <;>
      first
        | (subst h; decide)
        | (simp only [isDigit, Bool.and_eq_true, decide_eq_true_eq] at h
           simp only [isWsChar, Bool.or_eq_false_iff, decide_eq_false_iff_not]
           omega)
        | (simp only [isDigit, Bool.and_eq_true, decide_eq_true_eq] at h
           omega))

theorem delimOk_noDigit (rest : List Nat) (h : delimOk rest = true) :
    noDigitHead rest = true := by
  cases rest with
  | nil => rfl
  | cons c t =>
    simp only [delimOk, Bool.or_eq_true, beq_iff_eq] at h
    simp only [noDigitHead, isDigit, Bool.not_eq_true', Bool.and_eq_false_iff,
      decide_eq_false_iff_not]
    omega

theorem pv_null (f : Nat) (r : List Nat) :
    parseValue (f + 1) (110 :: r) =
      (if r.take 3 = [117, 108, 108] then some (JValue.null, r.drop 3) else none) := by
  simp only [parseValue]
  rw [skipWs_not 110 r (by decide)]
  norm_num

theorem pv_true (f : Nat) (r : List Nat) :
    parseValue (f + 1) (116 :: r) =
      (if r.take 3 = [114, 117, 101] then some (JValue.bool true, r.drop 3) else none) := by
  simp only [parseValue]
  rw [skipWs_not 116 r (by decide)]
  norm_num

theorem pv_false (f : Nat) (r : List Nat) :
    parseValue (f + 1) (102 :: r) =
      (if r.take 4 = [97, 108, 115, 101] then some (JValue.bool false, r.drop 4) else none) := by
  simp only [parseValue]
  rw [skipWs_not 102 r (by decide)]
  norm_num

theorem pv_quote (f : Nat) (r : List Nat) :
    parseValue (f + 1) (34 :: r) =
      (parseStringBody r).map (fun p => (JValue.str p.1, p.2)) := by
  simp only [parseValue]
  rw [skipWs_not 34 r (by decide)]
  norm_num

theorem pv_lbrace (f : Nat) (r : List Nat) :
    parseValue (f + 1) (123 :: r) =
      (if (skipWs r).headD 0 = 125 then some (JValue.obj [], (skipWs r).tail)
       else (parseMembers f (skipWs r)).map (fun p => (JValue.obj p.1, p.2))) := by
  simp only [parseValue]
  rw [skipWs_not 123 r (by decide)]
  norm_num

theorem pv_lbrack (f : Nat) (r : List Nat) :
    parseValue (f + 1) (91 :: r) =
      (if (skipWs r).headD 0 = 93 then some (JValue.arr [], (skipWs r).tail)
       else (parseElems f (skipWs r)).map (fun p => (JValue.arr p.1, p.2))) := by
  simp only [parseValue]
  rw [skipWs_not 91 r (by decide)]
  norm_num

theorem pv_other (f : Nat) (c : Nat) (r : List Nat) (hws : isWsChar c = false)
    (h1 : c ≠ 123) (h2 : c ≠ 91) (h3 : c ≠ 34) (h4 : c ≠ 110) (h5 : c ≠ 116) (h6 : c ≠ 102) :
    parseValue (f + 1) (c :: r) = parseNumber (c :: r) := by
  simp only [parseValue]
  rw [skipWs_not c r hws]
  simp only [if_neg h1, if_neg h2, if_neg h3, if_neg h4, if_neg h5, if_neg h6]

theorem pe_succ (f : Nat) (s : List Nat) :
    parseElems (f + 1) s =
      (parseValue f s).bind fun p =>
        if (skipWs p.2).headD 0 = 44 then
          (parseElems f (skipWs p.2).tail).map (fun q => (p.1 :: q.1, q.2))
        else if (skipWs p.2).headD 0 = 93 then some ([p.1], (skipWs p.2).tail)
        else none := by
  simp only [parseElems]

theorem pm_succ (f : Nat) (s : List Nat) :
    parseMembers (f + 1) s =
      (if (skipWs s).headD 0 = 34 then
        (parseStringBody (skipWs s).tail).bind fun pk =>
          if (skipWs pk.2).headD 0 = 58 then
            (parseValue f (skipWs pk.2).tail).bind fun pv =>
              if (skipWs pv.2).headD 0 = 44 then
                (parseMembers f (skipWs pv.2).tail).map (fun q => ((pk.1, pv.1) :: q.1, q.2))
              else if (skipWs pv.2).headD 0 = 125 then some ([(pk.1, pv.1)], (skipWs pv.2).tail)
              else none
          else none
      else none) := by
  simp only [parseMembers]

/-- Completeness of the parser over serializer output (with arbitrary
charset-escaping predicate `P`): parsing the serialization of a clean
value followed by a delimiter recovers the value exactly (and likewise
for element and member lists). -/
theorem parse_complete_all : ∀ f : Nat,
    (∀ (P : Nat → Bool) (v : JValue) (rest : List Nat), jcleanV v = true → needV v ≤ f →
      delimOk rest = true → parseValue f (serializeWith P v ++ rest) = some (v, rest)) ∧
    (∀ (P : Nat → Bool) (es : List JValue) (rest : List Nat), jcleanL es = true → es ≠ [] →
      needL es ≤ f → parseElems f (serElemsWith P es ++ 93 :: rest) = some (es, rest)) ∧
    (∀ (P : Nat → Bool) (ms : List (List Nat × JValue)) (rest : List Nat), jcleanM ms = true →
      ms ≠ [] → needM ms ≤ f →
      parseMembers f (serMembersWith P ms ++ 125 :: rest) = some (ms, rest)) := by
  intro f
  induction f using Nat.strong_induction_on with
  | _ f IH =>
  refine ⟨?_, ?_, ?_⟩
  · intro P v rest hcl hneed hdelim
    cases f with
    | zero =>
      have := needV_pos v
      omega
    | succ f' =>
    cases v with
    | null =>
      rw [show serializeWith P JValue.null ++ rest =
        110 :: (117 :: 108 :: 108 :: rest) from rfl, pv_null]
      simp
    | bool b =>
      cases b with
      | true =>
        rw [show serializeWith P (JValue.bool true) ++ rest =
          116 :: (114 :: 117 :: 101 :: rest) from rfl, pv_true]
        simp
      | false =>
        rw [show serializeWith P (JValue.bool false) ++ rest =
          102 :: (97 :: 108 :: 115 :: 101 :: rest) from rfl, pv_false]
        simp
    | num n =>
      have hnd := delimOk_noDigit rest hdelim
      by_cases hneg : n < 0
      · rw [ser_num, intRunes, if_pos hneg, List.cons_append,
          pv_other f' 45 _ (by decide) (by omega) (by omega) (by omega) (by omega)
            (by omega) (by omega),
          ← List.cons_append,
          show (45 :: natDigits n.natAbs : List Nat) = intRunes n by
            rw [intRunes, if_pos hneg]]
        exact parseNumber_complete n rest hnd
      · rcases hdig : natDigits n.natAbs with _ | ⟨d, ds⟩
        · exact absurd hdig (natDigits_ne_nil n.natAbs)
        · have hd : isDigit d = true := natDigits_all_digits n.natAbs d (by rw [hdig]; simp)
          simp only [isDigit, Bool.and_eq_true, decide_eq_true_eq] at hd
          rw [ser_num, intRunes, if_neg hneg, hdig, List.cons_append,
            pv_other f' d _ (by simp only [isWsChar, Bool.or_eq_false_iff,
              decide_eq_false_iff_not]; omega)
              (by omega) (by omega) (by omega) (by omega) (by omega) (by omega),
            ← List.cons_append, ← hdig,
            show (natDigits n.natAbs : List Nat) = intRunes n by rw [intRunes, if_neg hneg]]
          exact parseNumber_complete n rest hnd
    | str s =>
      have hs : s.all cleanRune = true := hcl
      rw [ser_str, List.cons_append, pv_quote]
      rw [show (s.flatMap (escChar P) ++ [34]) ++ rest =
        s.flatMap (escChar P) ++ 34 :: rest by simp]
      rw [parseStringBody_complete s P rest hs]
      rfl
    | arr es =>
      cases es with
      | nil =>
        rw [show serializeWith P (JValue.arr []) ++ rest = 91 :: (93 :: rest) from rfl,
          pv_lbrack, skipWs_not 93 rest (by decide)]
        simp
      | cons e es' =>
        have hclL : jcleanL (e :: es') = true := hcl
        have hneedL : needL (e :: es') ≤ f' := by
          simp only [needV] at hneed
          omega
        rw [ser_arr, List.cons_append, pv_lbrack]
        rw [show (serElemsWith P (e :: es') ++ [93]) ++ rest =
          serElemsWith P (e :: es') ++ 93 :: rest by simp]
        obtain ⟨c, t, hser, hws, h93, h125⟩ := serializeWith_head_ne P e
        have hZ : ∃ Z, serElemsWith P (e :: es') = serializeWith P e ++ Z := by
          cases es' with
          | nil => exact ⟨[], by rw [serElems_one, List.append_nil]⟩
          | cons w vs => exact ⟨44 :: serElemsWith P (w :: vs), serElems_cons2 P e w vs⟩
        obtain ⟨Z, hZ⟩ := hZ
        have hcons : serElemsWith P (e :: es') ++ 93 :: rest = c :: (t ++ Z ++ 93 :: rest) := by
          rw [hZ, hser]
          simp
        rw [hcons, skipWs_not c _ hws]
        rw [if_neg (by simpa using h93)]
        rw [← hcons]
        rw [(IH f' (by omega)).2.1 P (e :: es') rest hclL (by simp) hneedL]
        rfl
    | obj ms =>
      cases ms with
      | nil =>
        rw [show serializeWith P (JValue.obj []) ++ rest = 123 :: (125 :: rest) from rfl,
          pv_lbrace, skipWs_not 125 rest (by decide)]
        simp
      | cons m ms' =>
        have hclM : jcleanM (m :: ms') = true := hcl
        have hneedM : needM (m :: ms') ≤ f' := by
          simp only [needV] at hneed
          omega
        rw [ser_obj, List.cons_append, pv_lbrace]
        rw [show (serMembersWith P (m :: ms') ++ [125]) ++ rest =
          serMembersWith P (m :: ms') ++ 125 :: rest by simp]
        obtain ⟨k, v⟩ := m
        have hZ : ∃ Z, serMembersWith P ((k, v) :: ms') = serStr P k ++ Z := by
          cases ms' with
          | nil => exact ⟨58 :: serializeWith P v, serMembers_one P k v⟩
          | cons m2 ms2 =>
            exact ⟨58 :: serializeWith P v ++ 44 :: serMembersWith P (m2 :: ms2), by
              rw [serMembers_cons2]
              simp⟩
        obtain ⟨Z, hZ⟩ := hZ
        have hcons : serMembersWith P ((k, v) :: ms') ++ 125 :: rest =
            34 :: ((k.flatMap (escChar P) ++ [34]) ++ Z ++ 125 :: rest) := by
          rw [hZ, serStr]
          simp
        rw [hcons, skipWs_not 34 _ (by decide)]
        rw [if_neg (by simp)]
        rw [← hcons]
        rw [(IH f' (by omega)).2.2 P ((k, v) :: ms') rest hclM (by simp) hneedM]
        rfl
  · intro P es rest hcl hne hneed
    cases f with
    | zero =>
      have := needL_pos es hne
      omega
    | succ f' =>
    rcases es with _ | ⟨e, es'⟩
    · exact absurd rfl hne
    · have hclV : jcleanV e = true := by
        have : (jcleanV e && jcleanL es') = true := hcl
        simp only [Bool.and_eq_true] at this
        exact this.1
      have hclL' : jcleanL es' = true := by
        have : (jcleanV e && jcleanL es') = true := hcl
        simp only [Bool.and_eq_true] at this
        exact this.2
      have hneedV : needV e ≤ f' := by
        simp only [needL] at hneed
        omega
      rw [pe_succ]
      cases es' with
      | nil =>
        rw [serElems_one]
        rw [(IH f' (by omega)).1 P e (93 :: rest) hclV hneedV rfl]
        rw [Option.some_bind]
        rw [skipWs_not 93 rest (by decide)]
        simp
      | cons w vs =>
        have hneedL' : needL (w :: vs) ≤ f' := by
          simp only [needL] at hneed ⊢
          have := needV_pos e
          omega
        rw [serElems_cons2]
        rw [show (serializeWith P e ++ 44 :: serElemsWith P (w :: vs)) ++ 93 :: rest =
          serializeWith P e ++ 44 :: (serElemsWith P (w :: vs) ++ 93 :: rest) by simp]
        rw [(IH f' (by omega)).1 P e _ hclV hneedV (by simp [delimOk])]
        rw [Option.some_bind]
        rw [skipWs_not 44 _ (by decide)]
        simp only [List.headD_cons, List.tail_cons, if_pos rfl]
        rw [(IH f' (by omega)).2.1 P (w :: vs) rest hclL' (by simp) hneedL']
        rfl
  · intro P ms rest hcl hne hneed
    cases f with
    | zero =>
      have := needM_pos ms hne
      omega
    | succ f' =>
    rcases ms with _ | ⟨⟨k, v⟩, ms'⟩
    · exact absurd rfl hne
    · have hclk : k.all cleanRune = true := by
        have : (k.all cleanRune && jcleanV v && jcleanM ms') = true := hcl
        simp only [Bool.and_eq_true] at this
        exact this.1.1
      have hclV : jcleanV v = true := by
        have : (k.all cleanRune && jcleanV v && jcleanM ms') = true := hcl
        simp only [Bool.and_eq_true] at this
        exact this.1.2
      have hclM' : jcleanM ms' = true := by
        have : (k.all cleanRune && jcleanV v && jcleanM ms') = true := hcl
        simp only [Bool.and_eq_true] at this
        exact this.2
      have hneedV : needV v ≤ f' := by
        simp only [needM] at hneed
        omega
      rw [pm_succ]
      cases ms' with
      | nil =>
        rw [serMembers_one, serStr]
        rw [show (34 :: (k.flatMap (escChar P) ++ [34]) ++ 58 :: serializeWith P v) ++
            125 :: rest =
          34 :: (k.flatMap (escChar P) ++ 34 ::
            (58 :: (serializeWith P v ++ 125 :: rest))) by simp]
        rw [skipWs_not 34 _ (by decide)]
        simp only [List.headD_cons, List.tail_cons, if_pos rfl]
        rw [parseStringBody_complete k P _ hclk]
        rw [Option.some_bind]
        rw [skipWs_not 58 _ (by decide)]
        simp only [List.headD_cons, List.tail_cons, if_pos rfl]
        rw [(IH f' (by omega)).1 P v (125 :: rest) hclV hneedV rfl]
        rw [Option.some_bind]
        rw [skipWs_not 125 rest (by decide)]
        simp
      | cons m2 ms2 =>
        have hneedM' : needM (m2 :: ms2) ≤ f' := by
          rcases m2 with ⟨k2, v2⟩
          simp only [needM] at hneed ⊢
          have := needV_pos v
          omega
        rw [serMembers_cons2, serStr]
        rw [show (34 :: (k.flatMap (escChar P) ++ [34]) ++ 58 :: serializeWith P v ++
            44 :: serMembersWith P (m2 :: ms2)) ++ 125 :: rest =
          34 :: (k.flatMap (escChar P) ++ 34 ::
            (58 :: (serializeWith P v ++
              44 :: (serMembersWith P (m2 :: ms2) ++ 125 :: rest)))) by simp]
        rw [skipWs_not 34 _ (by decide)]
        simp only [List.headD_cons, List.tail_cons, if_pos rfl]
        rw [parseStringBody_complete k P _ hclk]
        rw [Option.some_bind]
        rw [skipWs_not 58 _ (by decide)]
        simp only [List.headD_cons, List.tail_cons, if_pos rfl]
        rw [(IH f' (by omega)).1 P v _ hclV hneedV (by simp [delimOk])]
        rw [Option.some_bind]
        rw [skipWs_not 44 _ (by decide)]
        simp only [List.headD_cons, List.tail_cons, if_pos rfl]
        rw [(IH f' (by omega)).2.2 P (m2 :: ms2) rest hclM' (by simp) hneedM']
        rfl

theorem intRunes_length_pos (n : Int) : 1 ≤ (intRunes n).length := by
  rw [intRunes]
  split_ifs
  · simp
  · rcases hdig : natDigits n.natAbs with _ | ⟨d, ds⟩
    · exact absurd hdig (natDigits_ne_nil n.natAbs)
    · simp

theorem sizeOf_list_pos {α : Type} [SizeOf α] (l : List α) : 0 < sizeOf l := by
  cases l <;> simp_arith

/-- The fuel bound is dominated by the serialization length. -/
theorem need_le_len_all : ∀ N : Nat,
    (∀ (P : Nat → Bool) (v : JValue), sizeOf v ≤ N →
      needV v ≤ (serializeWith P v).length) ∧
    (∀ (P : Nat → Bool) (es : List JValue), es ≠ [] → sizeOf es ≤ N →
      needL es ≤ 1 + (serElemsWith P es).length) ∧
    (∀ (P : Nat → Bool) (ms : List (List Nat × JValue)), ms ≠ [] → sizeOf ms ≤ N →
      needM ms ≤ 1 + (serMembersWith P ms).length) := by
  intro N
  induction N using Nat.strong_induction_on with
  | _ N IH =>
  refine ⟨?_, ?_, ?_⟩
  · intro P v hsz
    cases v with
    | null => simp [needV, ser_null]
    | bool b => cases b <;> simp [needV, ser_true, ser_false]
    | num n =>
      have := intRunes_length_pos n
      simp only [needV, ser_num]
      omega
    | str s =>
      simp [needV, ser_str]
    | arr es =>
      cases es with
      | nil => simp [needV, ser_arr]
      | cons e es' =>
        have hspec : sizeOf (JValue.arr (e :: es')) = 1 + sizeOf (e :: es') := by simp
        rw [hspec] at hsz
        have hIH := (IH (N - 1) (by omega)).2.1 P (e :: es') (by simp) (by omega)
        simp only [needV, ser_arr, List.length_cons, List.length_append,
          List.length_singleton]
        omega
    | obj ms =>
      cases ms with
      | nil => simp [needV, ser_obj]
      | cons m ms' =>
        have hspec : sizeOf (JValue.obj (m :: ms')) = 1 + sizeOf (m :: ms') := by simp
        rw [hspec] at hsz
        have hIH := (IH (N - 1) (by omega)).2.2 P (m :: ms') (by simp) (by omega)
        simp only [needV, ser_obj, List.length_cons, List.length_append,
          List.length_singleton]
        omega
  · intro P es hne hsz
    cases es with
    | nil => exact absurd rfl hne
    | cons e es' =>
      have hspec : sizeOf (e :: es') = 1 + sizeOf e + sizeOf es' := by simp
      rw [hspec] at hsz
      have hpos := sizeOf_list_pos es'
      have hV := (IH (N - 1) (by omega)).1 P e (by omega)
      cases es' with
      | nil =>
        simp only [needL, serElems_one]
        omega
      | cons w vs =>
        have hL := (IH (N - 1) (by omega)).2.1 P (w :: vs) (by simp) (by omega)
        simp only [needL] at hL ⊢
        simp only [serElems_cons2, List.length_append, List.length_cons]
        omega
  · intro P ms hne hsz
    rcases ms with _ | ⟨⟨k, v⟩, ms'⟩
    · exact absurd rfl hne
    · have hspec : sizeOf ((k, v) :: ms') = 1 + (1 + sizeOf k + sizeOf v) + sizeOf ms' := by
        simp
      rw [hspec] at hsz
      have hpos := sizeOf_list_pos ms'
      have hposk := sizeOf_list_pos k
      have hV := (IH (N - 1) (by omega)).1 P v (by omega)
      cases ms' with
      | nil =>
        simp only [needM, serMembers_one, serStr, List.length_append, List.length_cons]
        omega
      | cons m2 ms2 =>
        have hM := (IH (N - 1) (by omega)).2.2 P (m2 :: ms2) (by simp) (by omega)
        rcases m2 with ⟨k2, v2⟩
        simp only [needM] at hM ⊢
        simp only [serMembers_cons2, serStr, List.length_append, List.length_cons]
        omega

theorem need_le_len (P : Nat → Bool) (v : JValue) :
    needV v ≤ (serializeWith P v).length :=
  (need_le_len_all (sizeOf v)).1 P v le_rfl

/-- Parsing the serialization of a clean value at the `parseTop` fuel
recovers the value. -/
theorem parseTop_serialize (P : Nat → Bool) (v : JValue) (h : jcleanV v = true) :
    parseTop (serializeWith P v) = some v := by
  unfold parseTop
  have h1 := (parse_complete_all ((serializeWith P v).length + 1)).1 P v [] h
    (by have := need_le_len P v; omega) rfl
  rw [List.append_nil] at h1
  rw [h1]
  simp [skipWs]

/-! ### From transcoded bytes back to the serializer.

Decoding the transcoder's output recovers the original text with every
charset-representable code point literal and every other one replaced by
its JSON escape — which is exactly `serializeWith` at the charset's
representability predicate. -/

/-- Per-rune effect, after decoding, of the JSON-safe transcoding:
representable code points survive, the rest become their escape's code
points. -/
def expandCm (cm : Charmap) (rs : List Nat) : List Nat :=
  rs.flatMap fun r =>
    match cm.encodeRune r with
    | some _ => [r]
    | none => escBytes r

theorem expandCm_nil (cm : Charmap) : expandCm cm [] = [] := rfl

theorem expandCm_append (cm : Charmap) (a b : List Nat) :
    expandCm cm (a ++ b) = expandCm cm a ++ expandCm cm b := by
  simp [expandCm]

theorem expandCm_ascii (cm : Charmap) (hA : AsciiCompat cm) (l : List Nat)
    (h : ∀ b ∈ l, b < 0x80) : expandCm cm l = l := by
  induction l with
  | nil => rfl
  | cons b bs ih =>
    have hb := h b (by simp)
    simp only [expandCm, List.flatMap_cons, hA b hb]
    have := ih (fun x hx => h x (by simp [hx]))
    simp only [expandCm] at this
    rw [this]
    rfl

theorem map_decode_ascii (cm : Charmap) (hA : AsciiCompat cm) (hD : DecodesEncoded cm)
    (l : List Nat) (h : ∀ b ∈ l, b < 0x80) : l.map cm.decodeByte = l := by
  induction l with
  | nil => rfl
  | cons b bs ih =>
    have hb := h b (by simp)
    simp only [List.map_cons, hD b b (hA b hb), ih (fun x hx => h x (by simp [hx]))]

/-- Decoding the rune-level transcoding yields the expansion. -/
theorem decode_transcodeSpec (cm : Charmap) (hA : AsciiCompat cm) (hD : DecodesEncoded cm)
    (rs : List Nat) : (transcodeSpec cm rs).map cm.decodeByte = expandCm cm rs := by
  induction rs with
  | nil => rfl
  | cons r rs ih =>
    rw [transcodeSpec_cons, List.map_append, ih]
    simp only [expandCm, List.flatMap_cons]
    congr 1
    cases hc : cm.encodeRune r with
    | some c =>
      simp only [List.map_cons, List.map_nil, hD r c hc]
    | none =>
      exact map_decode_ascii cm hA hD _ (escBytes_ascii r)

theorem escChar_expand (cm : Charmap) (hA : AsciiCompat cm) (r : Nat) :
    expandCm cm (escChar (fun _ => true) r) =
      escChar (fun x => (cm.encodeRune x).isSome) r := by
  by_cases h34 : r = 34
  · subst h34
    rw [escChar, if_pos rfl, escChar, if_pos rfl]
    exact expandCm_ascii cm hA _ (by intro b hb; simp at hb; omega)
  · by_cases h92 : r = 92
    · subst h92
      rw [escChar, if_neg (by omega), if_pos rfl, escChar, if_neg (by omega), if_pos rfl]
      exact expandCm_ascii cm hA _ (by intro b hb; simp at hb; omega)
    · by_cases hctl : r < 32
      · rw [escChar, if_neg h34, if_neg h92, if_pos hctl,
          escChar, if_neg h34, if_neg h92, if_pos hctl]
        exact expandCm_ascii cm hA _ (escape_ascii r (by omega))
      · rw [escChar, if_neg h34, if_neg h92, if_neg hctl, if_pos rfl,
          escChar, if_neg h34, if_neg h92, if_neg hctl]
        simp only [expandCm, List.flatMap_cons, List.flatMap_nil, List.append_nil]
        cases hc : cm.encodeRune r with
        | some c => simp [hc]
        | none => simp [hc]

/-- The transcoder's expansion of the plainly-serialized value is the
serialization at the charset's representability predicate. -/
theorem expand_serialize_all (cm : Charmap) (hA : AsciiCompat cm) : ∀ N : Nat,
    (∀ v : JValue, sizeOf v ≤ N →
      expandCm cm (serializeWith (fun _ => true) v) =
        serializeWith (fun x => (cm.encodeRune x).isSome) v) ∧
    (∀ es : List JValue, sizeOf es ≤ N →
      expandCm cm (serElemsWith (fun _ => true) es) =
        serElemsWith (fun x => (cm.encodeRune x).isSome) es) ∧
    (∀ ms : List (List Nat × JValue), sizeOf ms ≤ N →
      expandCm cm (serMembersWith (fun _ => true) ms) =
        serMembersWith (fun x => (cm.encodeRune x).isSome) ms) := by
  intro N
  induction N using Nat.strong_induction_on with
  | _ N IH =>
  have hserStr : ∀ s : List Nat, expandCm cm (serStr (fun _ => true) s) =
      serStr (fun x => (cm.encodeRune x).isSome) s := by
    intro s
    rw [serStr, serStr]
    rw [show (34 : Nat) :: (s.flatMap (escChar fun _ => true) ++ [34]) =
      [34] ++ s.flatMap (escChar fun _ => true) ++ [34] from by simp]
    rw [expandCm_append, expandCm_append]
    rw [expandCm_ascii cm hA [34] (by intro b hb; simp at hb; omega)]
    have hmid : expandCm cm (s.flatMap (escChar fun _ => true)) =
        s.flatMap (escChar fun x => (cm.encodeRune x).isSome) := by
      induction s with
      | nil => rfl
      | cons r rs ih =>
        rw [List.flatMap_cons, List.flatMap_cons, expandCm_append, ih,
          escChar_expand cm hA r]
    rw [hmid]
    simp
  refine ⟨?_, ?_, ?_⟩
  · intro v hsz
    cases v with
    | null => exact expandCm_ascii cm hA _ (by intro b hb; simp [ser_null] at hb; omega)
    | bool b =>
      cases b with
      | true => exact expandCm_ascii cm hA _ (by intro b hb; simp [ser_true] at hb; omega)
      | false => exact expandCm_ascii cm hA _ (by intro b hb; simp [ser_false] at hb; omega)
    | num n =>
      rw [ser_num, ser_num]
      refine expandCm_ascii cm hA _ ?_
      intro b hb
      rw [intRunes] at hb
      split_ifs at hb with hneg
      · simp only [List.mem_cons] at hb
        rcases hb with h | h
        · omega
        · have := natDigits_all_digits n.natAbs b h
          simp only [isDigit, Bool.and_eq_true, decide_eq_true_eq] at this
          omega
      · have := natDigits_all_digits n.natAbs b hb
        simp only [isDigit, Bool.and_eq_true, decide_eq_true_eq] at this
        omega
    | str s => exact hserStr s
    | arr es =>
      have hspec : sizeOf (JValue.arr es) = 1 + sizeOf es := by simp
      rw [hspec] at hsz
      have hIH := (IH (N - 1) (by
          have := sizeOf_list_pos es
          omega)).2.1 es (by omega)
      rw [ser_arr, ser_arr]
      rw [show (91 : Nat) :: (serElemsWith (fun _ => true) es ++ [93]) =
        [91] ++ serElemsWith (fun _ => true) es ++ [93] from by simp]
      rw [expandCm_append, expandCm_append, hIH,
        expandCm_ascii cm hA [91] (by intro b hb; simp at hb; omega),
        expandCm_ascii cm hA [93] (by intro b hb; simp at hb; omega)]
      simp
    | obj ms =>
      have hspec : sizeOf (JValue.obj ms) = 1 + sizeOf ms := by simp
      rw [hspec] at hsz
      have hIH := (IH (N - 1) (by
          have := sizeOf_list_pos ms
          omega)).2.2 ms (by omega)
      rw [ser_obj, ser_obj]
      rw [show (123 : Nat) :: (serMembersWith (fun _ => true) ms ++ [125]) =
        [123] ++ serMembersWith (fun _ => true) ms ++ [125] from by simp]
      rw [expandCm_append, expandCm_append, hIH,
        expandCm_ascii cm hA [123] (by intro b hb; simp at hb; omega),
        expandCm_ascii cm hA [125] (by intro b hb; simp at hb; omega)]
      simp
  · intro es hsz
    cases es with
    | nil => rfl
    | cons e es' =>
      have hspec : sizeOf (e :: es') = 1 + sizeOf e + sizeOf es' := by simp
      rw [hspec] at hsz
      have hposE : 0 < sizeOf es' := sizeOf_list_pos es'
      have hV := (IH (N - 1) (by omega)).1 e (by omega)
      cases es' with
      | nil =>
        rw [serElems_one, serElems_one]
        exact hV
      | cons w vs =>
        have hL := (IH (N - 1) (by omega)).2.1 (w :: vs) (by omega)
        rw [serElems_cons2, serElems_cons2]
        rw [show serializeWith (fun _ => true) e ++ 44 :: serElemsWith (fun _ => true) (w :: vs) =
          serializeWith (fun _ => true) e ++ [44] ++ serElemsWith (fun _ => true) (w :: vs)
          from by simp]
        rw [expandCm_append, expandCm_append, hV, hL,
          expandCm_ascii cm hA [44] (by intro b hb; simp at hb; omega)]
        simp
  · intro ms hsz
    rcases ms with _ | ⟨⟨k, v⟩, ms'⟩
    · rfl
    · have hspec : sizeOf ((k, v) :: ms') = 1 + (1 + sizeOf k + sizeOf v) + sizeOf ms' := by
        simp
      rw [hspec] at hsz
      have hposM : 0 < sizeOf ms' := sizeOf_list_pos ms'
      have hposK : 0 < sizeOf k := sizeOf_list_pos k
      have hV := (IH (N - 1) (by omega)).1 v (by omega)
      have hK := hserStr k
      cases ms' with
      | nil =>
        rw [serMembers_one, serMembers_one]
        rw [show serStr (fun _ => true) k ++ 58 :: serializeWith (fun _ => true) v =
          serStr (fun _ => true) k ++ [58] ++ serializeWith (fun _ => true) v from by simp]
        rw [expandCm_append, expandCm_append, hV, hK,
          expandCm_ascii cm hA [58] (by intro b hb; simp at hb; omega)]
        simp
      | cons m2 ms2 =>
        have hM := (IH (N - 1) (by omega)).2.2 (m2 :: ms2) (by omega)
        rw [serMembers_cons2, serMembers_cons2]
        rw [show serStr (fun _ => true) k ++ 58 :: serializeWith (fun _ => true) v ++
            44 :: serMembersWith (fun _ => true) (m2 :: ms2) =
          serStr (fun _ => true) k ++ [58] ++ serializeWith (fun _ => true) v ++ [44] ++
            serMembersWith (fun _ => true) (m2 :: ms2) from by simp]
        rw [expandCm_append, expandCm_append, expandCm_append, expandCm_append,
          hV, hK, hM,
          expandCm_ascii cm hA [58] (by intro b hb; simp at hb; omega),
          expandCm_ascii cm hA [44] (by intro b hb; simp at hb; omega)]
        simp

theorem expand_serialize (cm : Charmap) (hA : AsciiCompat cm) (v : JValue) :
    expandCm cm (serializeWith (fun _ => true) v) =
      serializeWith (fun x => (cm.encodeRune x).isSome) v :=
  (expand_serialize_all cm hA (sizeOf v)).1 v le_rfl

theorem cleanRune_spec (r : Nat) (h : cleanRune r = true) : ValidRune r ∧ r ≠ runeError := by
  simp only [cleanRune, Bool.and_eq_true, decide_eq_true_eq, bne_iff_ne, ne_eq] at h
  exact h

theorem asciiClean (r : Nat) (h : r < 0x80) : ValidRune r ∧ r ≠ runeError :=
  ⟨⟨by omega, by omega⟩, by simp only [runeError]; omega⟩

theorem escChar_clean (P : Nat → Bool) (r : Nat) (h : cleanRune r = true) :
    ∀ x ∈ escChar P r, ValidRune x ∧ x ≠ runeError := by
  intro x hx
  unfold escChar at hx
  split_ifs at hx with h34 h92 hctl hP
  · exact asciiClean x (by simp at hx; omega)
  · exact asciiClean x (by simp at hx; omega)
  · exact asciiClean x (escape_ascii r (by omega) x hx)
  · simp at hx
    subst hx
    exact cleanRune_spec _ h
  · exact asciiClean x (escBytes_ascii r x hx)

theorem serStr_clean (P : Nat → Bool) (s : List Nat) (h : s.all cleanRune = true) :
    ∀ x ∈ serStr P s, ValidRune x ∧ x ≠ runeError := by
  intro x hx
  rw [serStr] at hx
  simp only [List.mem_cons, List.mem_append, List.mem_flatMap] at hx
  rcases hx with hx | ⟨r, hr, hx⟩ | hx
  · subst hx
    exact asciiClean 34 (by omega)
  · exact escChar_clean P r (by rw [List.all_eq_true] at h; exact h r hr) x hx
  · simp at hx
    subst hx
    exact asciiClean 34 (by omega)

theorem intRunes_clean (n : Int) : ∀ x ∈ intRunes n, ValidRune x ∧ x ≠ runeError := by
  intro x hx
  refine asciiClean x ?_
  rw [intRunes] at hx
  split_ifs at hx with hneg
  · simp only [List.mem_cons] at hx
    rcases hx with h | h
    · omega
    · have := natDigits_all_digits n.natAbs x h
      simp only [isDigit, Bool.and_eq_true, decide_eq_true_eq] at this
      omega
  · have := natDigits_all_digits n.natAbs x hx
    simp only [isDigit, Bool.and_eq_true, decide_eq_true_eq] at this
    omega

/-- Every code point in the serialization of a clean value is a Unicode
scalar value other than U+FFFD: strings contribute clean code points or
ASCII escapes, everything else is ASCII punctuation and literals. -/
theorem serialize_runes_all : ∀ N : Nat,
    (∀ (P : Nat → Bool) (v : JValue), jcleanV v = true → sizeOf v ≤ N →
      ∀ r ∈ serializeWith P v, ValidRune r ∧ r ≠ runeError) ∧
    (∀ (P : Nat → Bool) (es : List JValue), jcleanL es = true → sizeOf es ≤ N →
      ∀ r ∈ serElemsWith P es, ValidRune r ∧ r ≠ runeError) ∧
    (∀ (P : Nat → Bool) (ms : List (List Nat × JValue)), jcleanM ms = true → sizeOf ms ≤ N →
      ∀ r ∈ serMembersWith P ms, ValidRune r ∧ r ≠ runeError) := by
  intro N
  induction N using Nat.strong_induction_on with
  | _ N IH =>
  refine ⟨?_, ?_, ?_⟩
  · intro P v hclean hsz r hr
    cases v with
    | null =>
      rw [ser_null] at hr
      exact asciiClean r (by simp at hr; omega)
    | bool b =>
      cases b with
      | true =>
        rw [ser_true] at hr
        exact asciiClean r (by simp at hr; omega)
      | false =>
        rw [ser_false] at hr
        exact asciiClean r (by simp at hr; omega)
    | num n =>
      rw [ser_num] at hr
      exact intRunes_clean n r hr
    | str s =>
      rw [ser_str] at hr
      exact serStr_clean P s (by simpa [jcleanV] using hclean) r hr
    | arr es =>
      have hspec : sizeOf (JValue.arr es) = 1 + sizeOf es := by simp
      rw [hspec] at hsz
      rw [ser_arr] at hr
      simp only [List.mem_cons, List.mem_append] at hr
      rcases hr with hr | hr | hr
      · subst hr
        exact asciiClean 91 (by omega)
      · exact (IH (N - 1) (by have := sizeOf_list_pos es; omega)).2.1 P es
          (by simpa [jcleanV] using hclean) (by omega) r hr
      · simp at hr
        subst hr
        exact asciiClean 93 (by omega)
    | obj ms =>
      have hspec : sizeOf (JValue.obj ms) = 1 + sizeOf ms := by simp
      rw [hspec] at hsz
      rw [ser_obj] at hr
      simp only [List.mem_cons, List.mem_append] at hr
      rcases hr with hr | hr | hr
      · subst hr
        exact asciiClean 123 (by omega)
      · exact (IH (N - 1) (by have := sizeOf_list_pos ms; omega)).2.2 P ms
          (by simpa [jcleanV] using hclean) (by omega) r hr
      · simp at hr
        subst hr
        exact asciiClean 125 (by omega)
  · intro P es hclean hsz r hr
    cases es with
    | nil => simp [serElemsWith] at hr
    | cons e es' =>
      have hspec : sizeOf (e :: es') = 1 + sizeOf e + sizeOf es' := by simp
      rw [hspec] at hsz
      have hposE : 0 < sizeOf es' := sizeOf_list_pos es'
      simp only [jcleanL, Bool.and_eq_true] at hclean
      have hV := (IH (N - 1) (by omega)).1 P e hclean.1 (by omega)
      cases es' with
      | nil =>
        rw [serElems_one] at hr
        exact hV r hr
      | cons w vs =>
        rw [serElems_cons2] at hr
        simp only [List.mem_append, List.mem_cons] at hr
        rcases hr with hr | hr | hr
        · exact hV r hr
        · subst hr
          exact asciiClean 44 (by omega)
        · exact (IH (N - 1) (by omega)).2.1 P (w :: vs) hclean.2 (by omega) r hr
  · intro P ms hclean hsz r hr
    rcases ms with _ | ⟨⟨k, v⟩, ms'⟩
    · simp [serMembersWith] at hr
    · have hspec : sizeOf ((k, v) :: ms') = 1 + (1 + sizeOf k + sizeOf v) + sizeOf ms' := by
        simp
      rw [hspec] at hsz
      have hposM : 0 < sizeOf ms' := sizeOf_list_pos ms'
      have hposK : 0 < sizeOf k := sizeOf_list_pos k
      simp only [jcleanM, Bool.and_eq_true] at hclean
      have hV := (IH (N - 1) (by omega)).1 P v hclean.1.2 (by omega)
      have hK := serStr_clean P k hclean.1.1
      cases ms' with
      | nil =>
        rw [serMembers_one] at hr
        simp only [List.mem_append, List.mem_cons] at hr
        rcases hr with hr | hr | hr
        · exact hK r hr
        · subst hr
          exact asciiClean 58 (by omega)
        · exact hV r hr
      | cons m2 ms2 =>
        rw [serMembers_cons2] at hr
        simp only [List.mem_append, List.mem_cons] at hr
        rcases hr with (hr | hr | hr) | hr | hr
        · exact hK r hr
        · subst hr
          exact asciiClean 58 (by omega)
        · exact hV r hr
        · subst hr
          exact asciiClean 44 (by omega)
        · exact (IH (N - 1) (by omega)).2.2 P (m2 :: ms2) hclean.2 (by omega) r hr

theorem serialize_runes (P : Nat → Bool) (v : JValue) (h : jcleanV v = true) :
    ∀ r ∈ serializeWith P v, ValidRune r ∧ r ≠ runeError :=
  (serialize_runes_all (sizeOf v)).1 P v h le_rfl

/-! ## The utf-16be charset (model of x/text `unicode.UTF16(BigEndian, IgnoreBOM)`). -/

/-- Big-endian UTF-16 bytes of one code point: two bytes below 0x10000, a
surrogate pair's four bytes above. -/
def utf16beBytes (r : Nat) : List Nat :=
  if r < 0x10000 then [r / 0x100, r % 0x100]
  else [(utf16EncodeRune r).1 / 0x100, (utf16EncodeRune r).1 % 0x100,
        (utf16EncodeRune r).2 / 0x100, (utf16EncodeRune r).2 % 0x100]

/-- UTF-16BE encoding of a rune string. -/
def utf16beEncodeRunes (rs : List Nat) : List Nat := rs.flatMap utf16beBytes

/-- Model of the x/text UTF-16BE encoder's `Transform` over an unbounded
destination: decode UTF-8 runes from `src`; an invalid byte yields
`ErrShortSrc` when more input may come and is otherwise encoded as
U+FFFD's bytes `FF FD` consuming one byte; every decoded rune is written
as its big-endian code units.  This encoder can represent every code
point, so it never reports a repertoire error. -/
def utf16beEncT (src : List Nat) (atEOF : Bool) : List Nat × Nat × Option TErr :=
  if hs : src = [] then ([], 0, none)
  else
    if (utf8DecodeRune src).2 = 1 ∧ ¬(src.headD 0 < 0x80) then
      if !atEOF && !utf8FullRune src then ([], 0, some TErr.shortSrc)
      else
        (0xFF :: 0xFD :: (utf16beEncT (src.drop 1) atEOF).1,
         1 + (utf16beEncT (src.drop 1) atEOF).2.1,
         (utf16beEncT (src.drop 1) atEOF).2.2)
    else
      (utf16beBytes (utf8DecodeRune src).1 ++
        (utf16beEncT (src.drop (utf8DecodeRune src).2) atEOF).1,
       (utf8DecodeRune src).2 + (utf16beEncT (src.drop (utf8DecodeRune src).2) atEOF).2.1,
       (utf16beEncT (src.drop (utf8DecodeRune src).2) atEOF).2.2)
termination_by src.length
decreasing_by
  all_goals
    (have h1 := utf8DecodeRune_len_pos' src hs
     have h2 : 0 < src.length := List.length_pos.mpr hs
     simp only [List.length_drop]
     omega)

/-- On valid UTF-8, the UTF-16BE encoder transcodes the whole input with
no error. -/
theorem utf16beEncT_encode (rs : List Nat) (h : ∀ r ∈ rs, ValidRune r) (atEOF : Bool) :
    utf16beEncT (utf8EncodeRunes rs) atEOF =
      (utf16beEncodeRunes rs, (utf8EncodeRunes rs).length, none) := by
  induction rs with
  | nil =>
    rw [utf16beEncT.eq_def]
    simp [utf16beEncodeRunes, utf8EncodeRunes]
  | cons r rs ih =>
    have hval : ValidRune r := h r (by simp)
    have hd := utf8DecodeRune_encode r (utf8EncodeRunes rs) hval
    have hlenpos := utf8EncodeRune_length_pos r
    have hne : utf8EncodeRune r ++ utf8EncodeRunes rs ≠ [] := by
      intro hh
      rw [List.append_eq_nil] at hh
      rw [hh.1] at hlenpos
      simp at hlenpos
    have hih := ih (fun x hx => h x (by simp [hx]))
    rw [utf8EncodeRunes_cons]
    rw [utf16beEncT.eq_def, dif_neg hne, hd]
    have hcond : ¬((r, (utf8EncodeRune r).length).2 = 1 ∧
        ¬((utf8EncodeRune r ++ utf8EncodeRunes rs).headD 0 < 0x80)) := by
      by_cases h80 : r < 0x80
      · have he : utf8EncodeRune r = [r] := by
          unfold utf8EncodeRune
          rw [if_pos h80]
        rw [he]
        simp [h80]
      · have := utf8EncodeRune_length_ge2 r h80 hval
        simp only [not_and, not_not]
        intro h1
        omega
    rw [if_neg hcond]
    show (utf16beBytes r ++
        (utf16beEncT ((utf8EncodeRune r ++ utf8EncodeRunes rs).drop (utf8EncodeRune r).length) atEOF).1,
      (utf8EncodeRune r).length +
        (utf16beEncT ((utf8EncodeRune r ++ utf8EncodeRunes rs).drop (utf8EncodeRune r).length) atEOF).2.1,
      (utf16beEncT ((utf8EncodeRune r ++ utf8EncodeRunes rs).drop (utf8EncodeRune r).length) atEOF).2.2) = _
    rw [List.drop_left, hih]
    simp [utf16beEncodeRunes]

/-- Model of the x/text UTF-16BE decoder at end of input, as the decoded
rune string: big-endian byte pairs form code units; a high surrogate
followed by a low surrogate combines into a supplementary code point; any
other surrogate decodes as U+FFFD; a lone trailing byte decodes as
U+FFFD. -/
def utf16beDecRunes : List Nat → List Nat
  | [] => []
  | [_] => [runeError]
  | b0 :: b1 :: b2 :: b3 :: rest =>
    if 0xD800 ≤ b0 * 0x100 + b1 ∧ b0 * 0x100 + b1 < 0xDC00 then
      if 0xDC00 ≤ b2 * 0x100 + b3 ∧ b2 * 0x100 + b3 < 0xE000 then
        (0x10000 + (b0 * 0x100 + b1 - 0xD800) * 0x400 + (b2 * 0x100 + b3 - 0xDC00)) ::
          utf16beDecRunes rest
      else runeError :: utf16beDecRunes (b2 :: b3 :: rest)
    else if 0xDC00 ≤ b0 * 0x100 + b1 ∧ b0 * 0x100 + b1 < 0xE000 then
      runeError :: utf16beDecRunes (b2 :: b3 :: rest)
    else (b0 * 0x100 + b1) :: utf16beDecRunes (b2 :: b3 :: rest)
  | b0 :: b1 :: rest =>
    if 0xD800 ≤ b0 * 0x100 + b1 ∧ b0 * 0x100 + b1 < 0xE000 then
      runeError :: utf16beDecRunes rest
    else (b0 * 0x100 + b1) :: utf16beDecRunes rest

theorem utf16EncodeRune_bounds (r : Nat) (h1 : 0x10000 ≤ r) (h2 : r ≤ 0x10FFFF) :
    0xD800 ≤ (utf16EncodeRune r).1 ∧ (utf16EncodeRune r).1 < 0xDC00 ∧
    0xDC00 ≤ (utf16EncodeRune r).2 ∧ (utf16EncodeRune r).2 < 0xE000 ∧
    0x10000 + ((utf16EncodeRune r).1 - 0xD800) * 0x400 + ((utf16EncodeRune r).2 - 0xDC00) = r := by
  unfold utf16EncodeRune
  rw [if_neg (by omega)]
  refine ⟨by omega, by omega, by omega, by omega, by omega⟩

/-- Decoding one encoded valid rune from the front of a byte string. -/
theorem utf16beDecRunes_step (r : Nat) (h : ValidRune r) (t : List Nat) :
    utf16beDecRunes (utf16beBytes r ++ t) = r :: utf16beDecRunes t := by
  obtain ⟨hlt, hsur⟩ := h
  by_cases h16 : r < 0x10000
  · have hb : utf16beBytes r = [r / 0x100, r % 0x100] := by
      unfold utf16beBytes
      rw [if_pos h16]
    rw [hb]
    rcases t with _ | ⟨b2, _ | ⟨b3, rest⟩⟩
    · simp only [List.append_nil, utf16beDecRunes]
      rw [if_neg (by omega)]
      congr 1
      omega
    · simp only [List.cons_append, List.nil_append, utf16beDecRunes]
      rw [if_neg (by omega)]
      congr 1
      omega
    · simp only [List.cons_append, List.nil_append, utf16beDecRunes]
      rw [if_neg (by omega), if_neg (by omega)]
      congr 1
      omega
  · have hbd := utf16EncodeRune_bounds r (by omega) (by omega)
    have hb : utf16beBytes r =
        [(utf16EncodeRune r).1 / 0x100, (utf16EncodeRune r).1 % 0x100,
         (utf16EncodeRune r).2 / 0x100, (utf16EncodeRune r).2 % 0x100] := by
      unfold utf16beBytes
      rw [if_neg h16]
    rw [hb]
    simp only [List.cons_append, List.nil_append, utf16beDecRunes]
    rw [if_pos (by constructor <;> omega), if_pos (by constructor <;> omega)]
    simp only [List.cons.injEq]
    exact ⟨by omega, rfl⟩

/-- Round trip: UTF-16BE decoding inverts UTF-16BE encoding on valid rune
strings. -/
theorem utf16beDecRunes_encode (rs : List Nat) (h : ∀ r ∈ rs, ValidRune r) :
    utf16beDecRunes (utf16beEncodeRunes rs) = rs := by
  induction rs with
  | nil => rfl
  | cons r rs ih =>
    have : utf16beEncodeRunes (r :: rs) = utf16beBytes r ++ utf16beEncodeRunes rs := by
      simp [utf16beEncodeRunes]
    rw [this, utf16beDecRunes_step r (h r (by simp)) _,
      ih (fun x hx => h x (by simp [hx]))]

/-- A byte string of odd length decodes to a rune string ending in
U+FFFD: the lone final byte has no code-unit partner. -/
theorem utf16beDecRunes_odd_all : ∀ N : Nat, ∀ bs : List Nat, bs.length ≤ N →
    bs.length % 2 = 1 → ∃ pre, utf16beDecRunes bs = pre ++ [runeError] := by
  intro N
  induction N using Nat.strong_induction_on with
  | _ N IH =>
  intro bs hle hodd
  rcases bs with _ | ⟨b0, _ | ⟨b1, _ | ⟨b2, _ | ⟨b3, rest⟩⟩⟩⟩
  · simp at hodd
  · exact ⟨[], rfl⟩
  · simp at hodd
  · simp only [utf16beDecRunes]
    split_ifs with h1
    · exact ⟨[runeError], by simp [utf16beDecRunes]⟩
    · exact ⟨[b0 * 0x100 + b1], by simp [utf16beDecRunes]⟩
  · have hlen : (b0 :: b1 :: b2 :: b3 :: rest).length = rest.length + 4 := by simp
    rw [hlen] at hle hodd
    have hN : 4 ≤ N := by omega
    have hodd1 : rest.length % 2 = 1 := by omega
    have hodd2 : (b2 :: b3 :: rest).length % 2 = 1 := by simp; omega
    obtain ⟨p1, hp1⟩ := IH (N - 1) (by omega) rest (by omega) hodd1
    obtain ⟨p2, hp2⟩ := IH (N - 1) (by omega) (b2 :: b3 :: rest) (by simp; omega) hodd2
    simp only [utf16beDecRunes]
    split_ifs with h1 h2 h3
    · exact ⟨_ :: p1, by rw [hp1]; rfl⟩
    · exact ⟨runeError :: p2, by rw [hp2]; rfl⟩
    · exact ⟨runeError :: p2, by rw [hp2]; rfl⟩
    · exact ⟨(b0 * 0x100 + b1) :: p2, by rw [hp2]; rfl⟩

/-! ## The charset registry and `marshal` / `unmarshal` (src/json.go). -/

/-- ASCII lower-casing of one character. -/
def asciiLowerChar (c : Char) : Char :=
  if 65 ≤ c.toNat ∧ c.toNat ≤ 90 then Char.ofNat (c.toNat + 32) else c

/-- ASCII-folded form of a name. -/
def lowerName (s : String) : List Char := s.toList.map asciiLowerChar

/-- Modelled from the spec: `strings.EqualFold`, restricted to ASCII,
which is all the charset names this package compares (Unicode simple
folding and ASCII folding agree on them). -/
def eqFoldAscii (a b : String) : Bool := lowerName a = lowerName b

/-- An implemented charset: the underlying encoder's `Transform` and the
decoder as a byte-string-to-runes function (x/text decoders substitute
U+FFFD and never fail at end of input). -/
structure CharsetImpl where
  encT : List Nat → Bool → List Nat × Nat × Option TErr
  decRunes : List Nat → List Nat

/-- The charset implementation of a single-byte charmap. -/
def Charmap.impl (cm : Charmap) : CharsetImpl :=
  ⟨charmapEncode cm, fun bs => bs.map cm.decodeByte⟩

/-- The charset implementation of UTF-16BE. -/
def utf16beImpl : CharsetImpl := ⟨utf16beEncT, utf16beDecRunes⟩

/-- What a registry lookup can resolve a recognized name to: an encoding
with a transform, or a recognized name whose `encoding.Encoding` is `nil`
(x/text ships no implementation). -/
inductive CharsetRef where
  | implemented (cs : CharsetImpl)
  | unimplemented

/-- Modelled from the spec: the `ianaindex.MIME` registry restricted to
representative entries exercised by this package and its tests — the
ASCII and Latin-1 charmaps under their MIME and common alias names,
UTF-16BE, and OSD_EBCDIC_DF03_IRV as a recognized name with no bundled
implementation.  `none` models the `ianaindex: invalid encoding name`
error; lookup is case-insensitive. -/
def mimeIndex (name : String) : Option CharsetRef :=
  if lowerName name = "us-ascii".toList ∨ lowerName name = "ascii".toList then
    some (CharsetRef.implemented asciiCm.impl)
  else if lowerName name = "iso-8859-1".toList ∨ lowerName name = "latin1".toList then
    some (CharsetRef.implemented latin1Cm.impl)
  else if lowerName name = "utf-16be".toList then
    some (CharsetRef.implemented utf16beImpl)
  else if lowerName name = "osd_ebcdic_df03_irv".toList then
    some CharsetRef.unimplemented
  else none

/-- The errors the embedded operations report. `ianaInvalid` is the
registry's `ianaindex: invalid encoding name`; `marshalUnsupported` and
`unmarshalUnsupported` are the two `errors.New("...: unsupported
encoding")` values of src/json.go; `transformErr` wraps a transformer
error; `jsonSyntax` is a `json.Unmarshal` syntax error; `urlParse` is a
`net/url` parse error. -/
inductive GoErr where
  | ianaInvalid
  | marshalUnsupported
  | unmarshalUnsupported
  | transformErr (e : TErr)
  | jsonSyntax
  | urlParse
deriving DecidableEq, Repr

/-- Modelled from the spec: `json.Marshal` of a value — the compact JSON
serialization in UTF-8 with every string code point written literally
(`json.Marshal` escapes only what JSON requires plus HTML characters; the
values the embedding tracks contain none of the latter). -/
def jsonMarshal (v : JValue) : List Nat :=
  utf8EncodeRunes (serializeWith (fun _ => true) v)

/-- Embedding of `marshal` (src/json.go lines 147-171), parameterised by
the registry `index`: empty charset defaults to "us-ascii"; a
case-insensitive "utf-8" returns the JSON bytes unchanged with no
registry lookup; otherwise the name is resolved (unknown name and
recognized-but-nil-encoding errors kept distinct) and the JSON bytes are
run through the escaping transcoder at EOF. -/
def marshal (index : String → Option CharsetRef) (charset : String) (v : JValue) :
    Except GoErr (List Nat) :=
  let cs := if charset = "" then "us-ascii" else charset
  let buf := jsonMarshal v
  if eqFoldAscii cs "utf-8" then Except.ok buf
  else
    match index cs with
    | none => Except.error GoErr.ianaInvalid
    | some CharsetRef.unimplemented => Except.error GoErr.marshalUnsupported
    | some (CharsetRef.implemented impl) =>
      match jsonTransform impl.encT buf true with
      | (out, _, none) => Except.ok out
      | (_, _, some e) => Except.error (GoErr.transformErr e)

/-- Modelled from the spec: `json.Unmarshal` over the decoded code
points — parse one JSON value followed by only whitespace, anything else
is a syntax error. -/
def jsonUnmarshal (runes : List Nat) : Except GoErr JValue :=
  match parseTop runes with
  | some v => Except.ok v
  | none => Except.error GoErr.jsonSyntax

/-- Embedding of `unmarshal` (src/json.go lines 234-249), parameterised
by the registry `index`: a non-empty charset other than case-insensitive
"utf-8" is resolved (with the same two error kinds as `marshal`, but the
distinct "unmarshal: unsupported encoding" value) and the body decoded
through it; otherwise the body is taken as UTF-8. -/
def unmarshal (index : String → Option CharsetRef) (buf : List Nat) (charset : String) :
    Except GoErr JValue :=
  if charset ≠ "" ∧ eqFoldAscii charset "utf-8" = false then
    match index charset with
    | none => Except.error GoErr.ianaInvalid
    | some CharsetRef.unimplemented => Except.error GoErr.unmarshalUnsupported
    | some (CharsetRef.implemented impl) => jsonUnmarshal (impl.decRunes buf)
  else jsonUnmarshal (utf8DecodeAll buf)

/-! ### Round trips for clean values, per charset family. -/

theorem roundtrip_utf8 (charset : String) (hne : charset ≠ "")
    (hfold : eqFoldAscii charset "utf-8" = true) (v : JValue) (hclean : jcleanV v = true) :
    marshal mimeIndex charset v = Except.ok (jsonMarshal v) ∧
    unmarshal mimeIndex (jsonMarshal v) charset = Except.ok v := by
  constructor
  · rw [marshal]
    simp only [if_neg hne, hfold, if_pos]
  · rw [unmarshal]
    rw [if_neg (by simp [hfold])]
    have hvalid : ∀ r ∈ serializeWith (fun _ => true) v, ValidRune r := fun r hr =>
      (serialize_runes _ v hclean r hr).1
    rw [jsonMarshal, utf8DecodeAll_encode _ hvalid, jsonUnmarshal,
      parseTop_serialize _ v hclean]

theorem roundtrip_charmap (charset : String) (cm : Charmap)
    (hA : AsciiCompat cm) (hD : DecodesEncoded cm) (hne : charset ≠ "")
    (hfold : eqFoldAscii charset "utf-8" = false)
    (hidx : mimeIndex charset = some (CharsetRef.implemented cm.impl))
    (v : JValue) (hclean : jcleanV v = true) :
    marshal mimeIndex charset v =
      Except.ok (transcodeSpec cm (serializeWith (fun _ => true) v)) ∧
    unmarshal mimeIndex (transcodeSpec cm (serializeWith (fun _ => true) v)) charset =
      Except.ok v := by
  have hT := jsonTransform_charmap cm hA (serializeWith (fun _ => true) v) true
    (fun r hr => ⟨(serialize_runes _ v hclean r hr).1,
      fun _ => (serialize_runes _ v hclean r hr).2⟩)
  constructor
  · rw [marshal]
    simp only [if_neg hne, hfold, Bool.false_eq_true, if_false, hidx]
    rw [show cm.impl.encT = charmapEncode cm from rfl, jsonMarshal, hT]
  · rw [unmarshal]
    rw [if_pos ⟨hne, hfold⟩, hidx]
    show jsonUnmarshal
      ((transcodeSpec cm (serializeWith (fun _ => true) v)).map cm.decodeByte) = Except.ok v
    rw [decode_transcodeSpec cm hA hD, expand_serialize cm hA, jsonUnmarshal,
      parseTop_serialize _ v hclean]

theorem roundtrip_utf16be (charset : String) (hne : charset ≠ "")
    (hfold : eqFoldAscii charset "utf-8" = false)
    (hidx : mimeIndex charset = some (CharsetRef.implemented utf16beImpl))
    (v : JValue) (hclean : jcleanV v = true) :
    marshal mimeIndex charset v =
      Except.ok (utf16beEncodeRunes (serializeWith (fun _ => true) v)) ∧
    unmarshal mimeIndex (utf16beEncodeRunes (serializeWith (fun _ => true) v)) charset =
      Except.ok v := by
  have hvalid : ∀ r ∈ serializeWith (fun _ => true) v, ValidRune r := fun r hr =>
    (serialize_runes _ v hclean r hr).1
  constructor
  · rw [marshal]
    simp only [if_neg hne, hfold, Bool.false_eq_true, if_false, hidx]
    rw [show utf16beImpl.encT = utf16beEncT from rfl, jsonMarshal,
      jsonTransform_ok _ _ _ _ _ (utf16beEncT_encode _ hvalid true)]
  · rw [unmarshal]
    rw [if_pos ⟨hne, hfold⟩, hidx]
    show jsonUnmarshal
      (utf16beDecRunes (utf16beEncodeRunes (serializeWith (fun _ => true) v))) = Except.ok v
    rw [utf16beDecRunes_encode _ hvalid, jsonUnmarshal, parseTop_serialize _ v hclean]

/-! ### Soundness of the parser: a successful parse consumes a nonempty
prefix whose final code point is a value-closing character. -/

/-- The characters a JSON value's serialization can end with: closing
quote, bracket or brace, a digit, or the final letter of a literal. -/
def endOkRune (c : Nat) : Bool :=
  c == 34 || c == 93 || c == 125 || isDigit c || c == 101 || c == 108

theorem skipWs_suffix (l : List Nat) : ∃ w, l = w ++ skipWs l := by
  induction l with
  | nil => exact ⟨[], rfl⟩
  | cons c rest ih =>
    by_cases h : isWsChar c
    · obtain ⟨w, hw⟩ := ih
      refine ⟨c :: w, ?_⟩
      rw [skipWs, if_pos h, List.cons_append, ← hw]
    · refine ⟨[], ?_⟩
      rw [skipWs, if_neg h]
      rfl

theorem skipWs_nil_ws (l : List Nat) (h : skipWs l = []) : ∀ c ∈ l, isWsChar c = true := by
  induction l with
  | nil => simp
  | cons c rest ih =>
    rw [skipWs] at h
    split_ifs at h with hw
    · intro x hx
      rcases List.mem_cons.mp hx with hx | hx
      · subst hx
        exact hw
      · exact ih h x hx

theorem headD_cons_self (l : List Nat) (c : Nat) (hc : c ≠ 0) (h : l.headD 0 = c) :
    l = c :: l.tail := by
  cases l with
  | nil => simp at h; omega
  | cons a t => simp at h; subst h; rfl

theorem getLast?_append_right (l1 l2 : List Nat) (h : l2 ≠ []) :
    (l1 ++ l2).getLast? = l2.getLast? := by
  rw [List.getLast?_append]
  cases hl : l2.getLast? with
  | none => exact absurd (List.getLast?_eq_none_iff.mp hl) h
  | some a => rfl

theorem exists_concat (l : List Nat) (h : l ≠ []) : ∃ l2 a, l = l2 ++ [a] := by
  rcases List.eq_nil_or_concat l with h2 | ⟨l2, a, h2⟩
  · exact absurd h2 h
  · exact ⟨l2, a, by rw [h2, List.concat_eq_append]⟩

/-- Destructuring a mapped parse result. -/
theorem map2_eq_some {α β : Type} (o : Option (α × List Nat)) (g : α → β) (v : β)
    (rest : List Nat) (h : (o.map fun p => (g p.1, p.2)) = some (v, rest)) :
    ∃ a, o = some (a, rest) := by
  rcases o with _ | ⟨a, r⟩
  · cases h
  · simp only [Option.map_some', Option.some.injEq, Prod.mk.injEq] at h
    exact ⟨a, by rw [h.2]⟩

/-- Soundness of the string-body parser family: success means the input
is the consumed part — ending at a closing quote — followed by the
returned remainder. -/
theorem string_sound_all : ∀ N : Nat,
    (∀ s : List Nat, s.length ≤ N → ∀ cont rest, parseStringBody s = some (cont, rest) →
      ∃ pre, s = pre ++ 34 :: rest) ∧
    (∀ s : List Nat, s.length ≤ N → ∀ cont rest, parseEscaped s = some (cont, rest) →
      ∃ pre, s = pre ++ 34 :: rest) ∧
    (∀ s : List Nat, s.length ≤ N → ∀ cont rest, parseUEsc s = some (cont, rest) →
      ∃ pre, s = pre ++ 34 :: rest) ∧
    (∀ (u : Nat) (s : List Nat), s.length ≤ N → ∀ cont rest,
      parseLowSur u s = some (cont, rest) → ∃ pre, s = pre ++ 34 :: rest) := by
  intro N
  induction N using Nat.strong_induction_on with
  | _ N IH =>
  have hP : ∀ s : List Nat, s.length ≤ N → ∀ cont rest,
      parseStringBody s = some (cont, rest) → ∃ pre, s = pre ++ 34 :: rest := by
    intro s hlen cont rest hp
    rw [parseStringBody.eq_def] at hp
    split at hp
    · cases hp
    · rename_i c r0
      have hN : 1 ≤ N := by simp at hlen; omega
      have hr0 : r0.length ≤ N - 1 := by simp at hlen; omega
      split_ifs at hp with h34 h92 hctl
      · simp only [Option.some.injEq, Prod.mk.injEq] at hp
        subst h34
        refine ⟨[], ?_⟩
        rw [hp.2]
        rfl
      · obtain ⟨pre, hpre⟩ := (IH (N - 1) (by omega)).2.1 r0 hr0 cont rest hp
        exact ⟨c :: pre, by rw [hpre]; rfl⟩
      · obtain ⟨c1, hps⟩ := map2_eq_some _ _ _ _ hp
        obtain ⟨pre, hpre⟩ := (IH (N - 1) (by omega)).1 r0 hr0 c1 rest hps
        exact ⟨c :: pre, by rw [hpre]; rfl⟩
  have hE : ∀ s : List Nat, s.length ≤ N → ∀ cont rest,
      parseEscaped s = some (cont, rest) → ∃ pre, s = pre ++ 34 :: rest := by
    intro s hlen cont rest hp
    rw [parseEscaped.eq_def] at hp
    split at hp
    · cases hp
    · rename_i e r1
      have hN : 1 ≤ N := by simp at hlen; omega
      have hr1 : r1.length ≤ N - 1 := by simp at hlen; omega
      split_ifs at hp with hu
      · obtain ⟨pre, hpre⟩ := (IH (N - 1) (by omega)).2.2.1 r1 hr1 cont rest hp
        exact ⟨e :: pre, by rw [hpre]; rfl⟩
      · rcases hes : escSingle e with _ | ch <;> rw [hes] at hp <;> simp only [] at hp
        · cases hp
        · obtain ⟨c1, hps⟩ := map2_eq_some _ _ _ _ hp
          obtain ⟨pre, hpre⟩ := (IH (N - 1) (by omega)).1 r1 hr1 c1 rest hps
          exact ⟨e :: pre, by rw [hpre]; rfl⟩
  have hU : ∀ s : List Nat, s.length ≤ N → ∀ cont rest,
      parseUEsc s = some (cont, rest) → ∃ pre, s = pre ++ 34 :: rest := by
    intro s hlen cont rest hp
    rw [parseUEsc.eq_def] at hp
    split at hp
    · rename_i h1 h2 h3 h4 r2
      have hN : 4 ≤ N := by simp at hlen; omega
      rcases hh : hex4Val h1 h2 h3 h4 with _ | u <;> rw [hh] at hp <;> simp only [] at hp
      · cases hp
      · split_ifs at hp with hhi hlo
        · obtain ⟨pre, hpre⟩ :=
            (IH (N - 1) (by omega)).2.2.2 _ r2 (by simp at hlen; omega) cont rest hp
          exact ⟨h1 :: h2 :: h3 :: h4 :: pre, by rw [hpre]; rfl⟩
        · obtain ⟨c1, hps⟩ := map2_eq_some _ _ _ _ hp
          obtain ⟨pre, hpre⟩ :=
            (IH (N - 1) (by omega)).1 r2 (by simp at hlen; omega) c1 rest hps
          exact ⟨h1 :: h2 :: h3 :: h4 :: pre, by rw [hpre]; rfl⟩
        · obtain ⟨c1, hps⟩ := map2_eq_some _ _ _ _ hp
          obtain ⟨pre, hpre⟩ :=
            (IH (N - 1) (by omega)).1 r2 (by simp at hlen; omega) c1 rest hps
          exact ⟨h1 :: h2 :: h3 :: h4 :: pre, by rw [hpre]; rfl⟩
    · cases hp
  have hS : ∀ (u : Nat) (s : List Nat), s.length ≤ N → ∀ cont rest,
      parseLowSur u s = some (cont, rest) → ∃ pre, s = pre ++ 34 :: rest := by
    intro u s hlen cont rest hp
    rw [parseLowSur.eq_def] at hp
    split at hp
    · rename_i g1 g2 g3 g4 r3
      rcases hh : hex4Val g1 g2 g3 g4 with _ | u2 <;> rw [hh] at hp <;> simp only [] at hp
      · obtain ⟨c1, hps⟩ := map2_eq_some _ _ _ _ hp
        exact hP _ hlen c1 rest hps
      · split_ifs at hp with hlo
        · obtain ⟨c1, hps⟩ := map2_eq_some _ _ _ _ hp
          obtain ⟨pre, hpre⟩ := hP r3 (by simp at hlen; omega) c1 rest hps
          exact ⟨92 :: 117 :: g1 :: g2 :: g3 :: g4 :: pre, by rw [hpre]; rfl⟩
        · obtain ⟨c1, hps⟩ := map2_eq_some _ _ _ _ hp
          exact hP _ hlen c1 rest hps
    · obtain ⟨c1, hps⟩ := map2_eq_some _ _ _ _ hp
      exact hP _ hlen c1 rest hps
  exact ⟨hP, hE, hU, hS⟩

theorem parseStringBody_sound (s : List Nat) (cont rest : List Nat)
    (h : parseStringBody s = some (cont, rest)) : ∃ pre, s = pre ++ 34 :: rest :=
  (string_sound_all s.length).1 s le_rfl cont rest h

theorem takeDigits_decomp (l : List Nat) :
    l = (takeDigits l).1 ++ (takeDigits l).2 ∧ ∀ d ∈ (takeDigits l).1, isDigit d = true := by
  induction l with
  | nil => exact ⟨rfl, by simp [takeDigits]⟩
  | cons c rest ih =>
    rcases ih with ⟨ih1, ih2⟩
    by_cases hd : isDigit c
    · have ht : takeDigits (c :: rest) = (c :: (takeDigits rest).1, (takeDigits rest).2) := by
        rw [takeDigits, if_pos hd]
      rw [ht]
      refine ⟨?_, ?_⟩
      · simp only [List.cons_append]
        rw [← ih1]
      · intro d hdm
        rcases List.mem_cons.mp hdm with h | h
        · subst h
          exact hd
        · exact ih2 d h
    · have ht : takeDigits (c :: rest) = ([], c :: rest) := by
        rw [takeDigits, if_neg hd]
      rw [ht]
      exact ⟨rfl, by simp⟩

theorem parseNumber_sound (s : List Nat) (v : JValue) (rest : List Nat)
    (h : parseNumber s = some (v, rest)) :
    ∃ pre d, s = pre ++ d :: rest ∧ isDigit d = true := by
  rw [parseNumber] at h
  by_cases h45 : s.headD 0 = 45
  · rw [if_pos h45] at h
    by_cases hds : (takeDigits s.tail).1 = []
    · rw [if_pos hds] at h
      cases h
    · rw [if_neg hds] at h
      simp only [Option.some.injEq, Prod.mk.injEq] at h
      obtain ⟨hv, hrest⟩ := h
      obtain ⟨hdec, hdig⟩ := takeDigits_decomp s.tail
      obtain ⟨pre2, d, hcat⟩ := exists_concat _ hds
      have hcs := headD_cons_self s 45 (by omega) h45
      refine ⟨45 :: pre2, d, ?_, hdig d (by rw [hcat]; simp)⟩
      rw [← hrest]
      calc s = 45 :: s.tail := hcs
      _ = 45 :: ((takeDigits s.tail).1 ++ (takeDigits s.tail).2) := by rw [← hdec]
      _ = 45 :: (pre2 ++ [d] ++ (takeDigits s.tail).2) := by rw [hcat]
      _ = (45 :: pre2) ++ d :: (takeDigits s.tail).2 := by simp
  · rw [if_neg h45] at h
    by_cases hds2 : (takeDigits s).1 = []
    · rw [if_pos hds2] at h
      cases h
    · rw [if_neg hds2] at h
      simp only [Option.some.injEq, Prod.mk.injEq] at h
      obtain ⟨hv, hrest⟩ := h
      obtain ⟨hdec, hdig⟩ := takeDigits_decomp s
      obtain ⟨pre2, d, hcat⟩ := exists_concat _ hds2
      refine ⟨pre2, d, ?_, hdig d (by rw [hcat]; simp)⟩
      rw [← hrest]
      calc s = (takeDigits s).1 ++ (takeDigits s).2 := hdec
      _ = pre2 ++ [d] ++ (takeDigits s).2 := by rw [hcat]
      _ = pre2 ++ d :: (takeDigits s).2 := by simp

theorem endOk_digit (d : Nat) (h : isDigit d = true) : endOkRune d = true := by
  simp [endOkRune, h]

/-- Soundness of the fuel-indexed parser: success splits the input as the
consumed part followed by the remainder, and the consumed part ends in a
value-closing character (`]` for the element parser, `}` for the member
parser, which consume the closing delimiter). -/
theorem parse_sound_all : ∀ f : Nat,
    (∀ s v rest, parseValue f s = some (v, rest) →
      ∃ pre c, s = pre ++ c :: rest ∧ endOkRune c = true) ∧
    (∀ s es rest, parseElems f s = some (es, rest) → ∃ pre, s = pre ++ 93 :: rest) ∧
    (∀ s ms rest, parseMembers f s = some (ms, rest) → ∃ pre, s = pre ++ 125 :: rest) := by
  intro f
  induction f with
  | zero =>
    refine ⟨?_, ?_, ?_⟩ <;> (intro s x rest hp; cases hp)
  | succ f IHf =>
    obtain ⟨IHV, IHE, IHM⟩ := IHf
    have hV : ∀ s v rest, parseValue (f + 1) s = some (v, rest) →
        ∃ pre c, s = pre ++ c :: rest ∧ endOkRune c = true := by
      intro s v rest hp
      simp only [parseValue] at hp
      split at hp
      · cases hp
      · rename_i c r heq
        obtain ⟨w1, hw1⟩ := skipWs_suffix s
        rw [heq] at hw1
        by_cases h123 : c = 123
        · rw [if_pos h123] at hp
          subst h123
          by_cases h125 : (skipWs r).headD 0 = 125
          · rw [if_pos h125] at hp
            simp only [Option.some.injEq, Prod.mk.injEq] at hp
            obtain ⟨hv, hrest⟩ := hp
            have hc := headD_cons_self _ _ (by omega) h125
            obtain ⟨w2, hw2⟩ := skipWs_suffix r
            refine ⟨w1 ++ 123 :: w2, 125, ?_, rfl⟩
            rw [hw1, hw2, hc, hrest]
            simp
          · rw [if_neg h125] at hp
            obtain ⟨ms2, hps⟩ := map2_eq_some _ _ _ _ hp
            obtain ⟨preM, hpreM⟩ := IHM _ _ _ hps
            obtain ⟨w2, hw2⟩ := skipWs_suffix r
            refine ⟨w1 ++ 123 :: (w2 ++ preM), 125, ?_, rfl⟩
            rw [hw1, hw2, hpreM]
            simp
        · rw [if_neg h123] at hp
          by_cases h91 : c = 91
          · rw [if_pos h91] at hp
            subst h91
            by_cases h93 : (skipWs r).headD 0 = 93
            · rw [if_pos h93] at hp
              simp only [Option.some.injEq, Prod.mk.injEq] at hp
              obtain ⟨hv, hrest⟩ := hp
              have hc := headD_cons_self _ _ (by omega) h93
              obtain ⟨w2, hw2⟩ := skipWs_suffix r
              refine ⟨w1 ++ 91 :: w2, 93, ?_, rfl⟩
              rw [hw1, hw2, hc, hrest]
              simp
            · rw [if_neg h93] at hp
              obtain ⟨es2, hps⟩ := map2_eq_some _ _ _ _ hp
              obtain ⟨preE, hpreE⟩ := IHE _ _ _ hps
              obtain ⟨w2, hw2⟩ := skipWs_suffix r
              refine ⟨w1 ++ 91 :: (w2 ++ preE), 93, ?_, rfl⟩
              rw [hw1, hw2, hpreE]
              simp
          · rw [if_neg h91] at hp
            by_cases h34 : c = 34
            · rw [if_pos h34] at hp
              subst h34
              obtain ⟨c2, hps⟩ := map2_eq_some _ _ _ _ hp
              obtain ⟨preS, hpreS⟩ := parseStringBody_sound _ _ _ hps
              refine ⟨w1 ++ 34 :: preS, 34, ?_, rfl⟩
              rw [hw1, hpreS]
              simp
            · rw [if_neg h34] at hp
              by_cases h110 : c = 110
              · rw [if_pos h110] at hp
                subst h110
                by_cases ht1 : r.take 3 = [117, 108, 108]
                · rw [if_pos ht1] at hp
                  simp only [Option.some.injEq, Prod.mk.injEq] at hp
                  obtain ⟨hv, hrest⟩ := hp
                  have hr : r = [117, 108, 108] ++ rest := by
                    rw [← hrest, ← ht1, List.take_append_drop]
                  refine ⟨w1 ++ [110, 117, 108], 108, ?_, rfl⟩
                  rw [hw1, hr]
                  simp
                · rw [if_neg ht1] at hp
                  cases hp
              · rw [if_neg h110] at hp
                by_cases h116 : c = 116
                · rw [if_pos h116] at hp
                  subst h116
                  by_cases ht2 : r.take 3 = [114, 117, 101]
                  · rw [if_pos ht2] at hp
                    simp only [Option.some.injEq, Prod.mk.injEq] at hp
                    obtain ⟨hv, hrest⟩ := hp
                    have hr : r = [114, 117, 101] ++ rest := by
                      rw [← hrest, ← ht2, List.take_append_drop]
                    refine ⟨w1 ++ [116, 114, 117], 101, ?_, rfl⟩
                    rw [hw1, hr]
                    simp
                  · rw [if_neg ht2] at hp
                    cases hp
                · rw [if_neg h116] at hp
                  by_cases h102 : c = 102
                  · rw [if_pos h102] at hp
                    subst h102
                    by_cases ht3 : r.take 4 = [97, 108, 115, 101]
                    · rw [if_pos ht3] at hp
                      simp only [Option.some.injEq, Prod.mk.injEq] at hp
                      obtain ⟨hv, hrest⟩ := hp
                      have hr : r = [97, 108, 115, 101] ++ rest := by
                        rw [← hrest, ← ht3, List.take_append_drop]
                      refine ⟨w1 ++ [102, 97, 108, 115], 101, ?_, rfl⟩
                      rw [hw1, hr]
                      simp
                    · rw [if_neg ht3] at hp
                      cases hp
                  · rw [if_neg h102] at hp
                    obtain ⟨pre2, d, hcat, hdig⟩ := parseNumber_sound _ _ _ hp
                    refine ⟨w1 ++ pre2, d, ?_, endOk_digit d hdig⟩
                    rw [hw1, hcat]
                    simp
    refine ⟨hV, ?_, ?_⟩
    · intro s es rest hp
      simp only [parseElems] at hp
      rw [Option.bind_eq_some] at hp
      obtain ⟨⟨v1, p2⟩, hv, hrest⟩ := hp
      obtain ⟨preV, cV, hsV, hendV⟩ := IHV s v1 p2 hv
      by_cases h44 : (skipWs p2).headD 0 = 44
      · rw [if_pos h44] at hrest
        obtain ⟨es2, hps⟩ := map2_eq_some _ _ _ _ hrest
        obtain ⟨preE, hpreE⟩ := IHE _ _ _ hps
        have h44c := headD_cons_self _ _ (by omega) h44
        obtain ⟨w2, hw2⟩ := skipWs_suffix p2
        refine ⟨preV ++ cV :: (w2 ++ 44 :: preE), ?_⟩
        rw [hsV, hw2, h44c, hpreE]
        simp
      · rw [if_neg h44] at hrest
        by_cases h93 : (skipWs p2).headD 0 = 93
        · rw [if_pos h93] at hrest
          simp only [Option.some.injEq, Prod.mk.injEq] at hrest
          obtain ⟨he, hr⟩ := hrest
          have h93c := headD_cons_self _ _ (by omega) h93
          obtain ⟨w2, hw2⟩ := skipWs_suffix p2
          refine ⟨preV ++ cV :: w2, ?_⟩
          rw [hsV, hw2, h93c, hr]
          simp
        · rw [if_neg h93] at hrest
          cases hrest
    · intro s ms rest hp
      simp only [parseMembers] at hp
      by_cases h34k : (skipWs s).headD 0 = 34
      · rw [if_pos h34k] at hp
        rw [Option.bind_eq_some] at hp
        obtain ⟨⟨k1, pk2⟩, hk, hrest2⟩ := hp
        obtain ⟨preK, hpreK⟩ := parseStringBody_sound _ _ _ hk
        have h34c := headD_cons_self _ _ (by omega) h34k
        obtain ⟨w1, hw1⟩ := skipWs_suffix s
        by_cases h58 : (skipWs pk2).headD 0 = 58
        · rw [if_pos h58] at hrest2
          rw [Option.bind_eq_some] at hrest2
          obtain ⟨⟨v1, pv2⟩, hv, hrest3⟩ := hrest2
          obtain ⟨preV, cV, hsV, hendV⟩ := IHV _ _ _ hv
          have h58c := headD_cons_self _ _ (by omega) h58
          obtain ⟨w2, hw2⟩ := skipWs_suffix pk2
          by_cases h44 : (skipWs pv2).headD 0 = 44
          · rw [if_pos h44] at hrest3
            obtain ⟨ms2, hps⟩ := map2_eq_some _ _ _ _ hrest3
            obtain ⟨preM, hpreM⟩ := IHM _ _ _ hps
            have h44c := headD_cons_self _ _ (by omega) h44
            obtain ⟨w3, hw3⟩ := skipWs_suffix pv2
            refine ⟨w1 ++ 34 :: (preK ++ 34 ::
              (w2 ++ 58 :: (preV ++ cV :: (w3 ++ 44 :: preM)))), ?_⟩
            rw [hw1, h34c, hpreK, hw2, h58c, hsV, hw3, h44c, hpreM]
            simp
          · rw [if_neg h44] at hrest3
            by_cases h125 : (skipWs pv2).headD 0 = 125
            · rw [if_pos h125] at hrest3
              simp only [Option.some.injEq, Prod.mk.injEq] at hrest3
              obtain ⟨hm, hr⟩ := hrest3
              have h125c := headD_cons_self _ _ (by omega) h125
              obtain ⟨w3, hw3⟩ := skipWs_suffix pv2
              refine ⟨w1 ++ 34 :: (preK ++ 34 :: (w2 ++ 58 :: (preV ++ cV :: w3))), ?_⟩
              rw [hw1, h34c, hpreK, hw2, h58c, hsV, hw3, h125c, hr]
              simp
            · rw [if_neg h125] at hrest3
              cases hrest3
        · rw [if_neg h58] at hrest2
          cases hrest2
      · rw [if_neg h34k] at hp
        cases hp

/-- A rune string whose final code point is U+FFFD is not a valid JSON
document: a value cannot end in U+FFFD and trailing whitespace cannot
contain it. -/
theorem parseTop_trailing_fffd (s pre : List Nat) (hs : s = pre ++ [runeError]) :
    parseTop s = none := by
  rcases hpv : parseValue (s.length + 1) s with _ | ⟨v, rest⟩
  · rw [parseTop, hpv]
  · obtain ⟨preV, c, hdec, hend⟩ := (parse_sound_all (s.length + 1)).1 s v rest hpv
    rw [parseTop, hpv]
    simp only []
    by_cases hsw : skipWs rest = []
    · exfalso
      rcases rest with _ | ⟨r0, rest'⟩
      · rw [hdec] at hs
        have hlast := congrArg List.getLast? hs
        rw [List.getLast?_concat, List.getLast?_concat] at hlast
        have hc : c = runeError := by
          simpa using hlast
        rw [hc] at hend
        exact absurd hend (by decide)
      · have hmem : runeError ∈ r0 :: rest' := by
          rw [hdec] at hs
          have hlast := congrArg List.getLast? hs
          rw [List.getLast?_concat,
            getLast?_append_right preV (c :: r0 :: rest') (by simp),
            List.getLast?_cons_cons] at hlast
          exact List.mem_of_getLast?_eq_some hlast
        have := skipWs_nil_ws _ hsw runeError hmem
        simp [isWsChar, runeError] at this
    · rw [if_neg hsw]

/-! ## Request and response construction (src/json.go `MarshalRequest`,
`WriteResponse`) and `ResponseError.Error`. -/

/-- Modelled from the spec: the charset parameter `mime.ParseMediaType`
extracts from media-type values of the shape this package's call sites
and tests use — `type/subtype` optionally followed by `;charset=value`. -/
def findCharset : List Char → Option (List Char)
  | [] => none
  | c :: rest =>
    if c = ';' ∧ rest.take 8 = "charset=".toList then some (rest.drop 8)
    else findCharset rest

/-- The `charset` parameter of a media type, `""` when absent. -/
def charsetParam (ct : String) : String :=
  match findCharset ct.toList with
  | some cs => String.mk cs
  | none => ""

/-- Modelled from the spec: `http.NewRequest` URL validation restricted
to the failure mode the repository's tests exercise — `net/url` reports
`missing protocol scheme` for a URL whose first colon is at position
zero.  Other URLs are accepted by the model. -/
def urlOk (u : String) : Bool := decide (u.toList.take 1 ≠ [':'])

/-- The observable parts of the `http.Request` that `MarshalRequest`
builds: body bytes, the two headers it may set, and whether `GetBody` was
assigned. -/
structure RequestModel where
  method : String
  url : String
  body : Option (List Nat)
  contentTypeHeader : Option String
  contentLength : Option Nat
  hasGetBody : Bool
deriving DecidableEq, Repr

/-- Embedding of `MarshalRequest` (src/json.go lines 49-78): an empty
content type defaults to `application/json;charset=utf-8`; a nil value
skips marshaling entirely (so the content type is never parsed) and
builds a bodyless request with no Content-Type/Content-Length headers and
no GetBody; otherwise the value is marshaled in the content type's
charset before the URL is validated, and the headers and GetBody are
set. -/
def marshalRequest (method url contentType : String) (v : Option JValue) :
    Except GoErr RequestModel :=
  let ct := if contentType = "" then "application/json;charset=utf-8" else contentType
  match v with
  | none =>
    if urlOk url then
      Except.ok ⟨method, url, none, none, none, false⟩
    else Except.error GoErr.urlParse
  | some jv =>
    match marshal mimeIndex (charsetParam ct) jv with
    | Except.error e => Except.error e
    | Except.ok body =>
      if urlOk url then
        Except.ok ⟨method, url, some body, some ct, some body.length, true⟩
      else Except.error GoErr.urlParse

/-- The observable parts of the HTTP response `WriteResponse` writes. -/
structure ResponseModel where
  headerContentType : Option String
  headerContentLength : Option Nat
  wroteStatus : Option Nat
  body : List Nat
deriving DecidableEq, Repr

/-- Embedding of `WriteResponse` (src/json.go lines 110-130): an empty
content type defaults to `application/json;charset=utf-8`; a nil value
writes an empty body and no headers; otherwise the value is marshaled in
the content type's charset and the headers are set; the status code is
written when positive. -/
def writeResponse (statusCode : Nat) (contentType : String) (v : Option JValue) :
    Except GoErr ResponseModel :=
  let ct := if contentType = "" then "application/json;charset=utf-8" else contentType
  match v with
  | none =>
    Except.ok ⟨none, none, if 0 < statusCode then some statusCode else none, []⟩
  | some jv =>
    match marshal mimeIndex (charsetParam ct) jv with
    | Except.error e => Except.error e
    | Except.ok body =>
      Except.ok ⟨some ct, some body.length,
        if 0 < statusCode then some statusCode else none, body⟩

/-- Modelled from the spec: `bytes.TrimSpace` restricted to ASCII
whitespace, which is all the message bodies at issue contain. -/
def isSpaceByte (b : Nat) : Bool := b = 9 || b = 10 || b = 11 || b = 12 || b = 13 || b = 32

def trimSpace (l : List Nat) : List Nat :=
  ((l.dropWhile isSpaceByte).reverse.dropWhile isSpaceByte).reverse

/-- Whether a media type is textual (`strings.HasPrefix(mt, "text/")`). -/
def hasPrefixText (mt : String) : Bool := mt.toList.take 5 = ['t', 'e', 'x', 't', '/']

/-- Embedding of `ResponseError.Error` (src/json.go lines 359-377) over
the outcome of the Content-Type parse (`none` models a
`mime.ParseMediaType` error; otherwise the media type and its charset
parameter), the response body bytes, and the status line.  The `err`
threading of the source is translated branch by branch: a registry
lookup failure falls through to the status line; a recognized charset
with no implementation leaves the body undecoded with no error; decoders
themselves never fail. -/
def responseError (ctParse : Option (String × String)) (body status : List Nat) :
    List Nat :=
  match ctParse with
  | none => status
  | some (mt, charset) =>
    if hasPrefixText mt = true then
      if charset ≠ "" ∧ eqFoldAscii charset "utf-8" = false then
        match mimeIndex charset with
        | none => status
        | some CharsetRef.unimplemented =>
          if 0 < body.length ∧ body.length < 256 then trimSpace body else status
        | some (CharsetRef.implemented impl) =>
          if 0 < (utf8EncodeRunes (impl.decRunes body)).length ∧
              (utf8EncodeRunes (impl.decRunes body)).length < 256 then
            trimSpace (utf8EncodeRunes (impl.decRunes body))
          else status
      else
        if 0 < body.length ∧ body.length < 256 then trimSpace body else status
    else status

/-- The body as the message-decoding step leaves it: decoded through a
declared, implemented, non-UTF-8 charset, untouched otherwise. -/
def respDecodedBody (charset : String) (body : List Nat) : List Nat :=
  if charset ≠ "" ∧ eqFoldAscii charset "utf-8" = false then
    match mimeIndex charset with
    | some (CharsetRef.implemented impl) => utf8EncodeRunes (impl.decRunes body)
    | _ => body
  else body

/-- Whether the declared charset resolves (and hence decodes) without
error: absent, UTF-8, or a recognized registry name. -/
def charsetResolves (charset : String) : Bool :=
  decide (charset = "") || eqFoldAscii charset "utf-8" || (mimeIndex charset).isSome

/-- `ResponseError.Error` as the specification sentence states it: the
whitespace-trimmed (decoded) body exactly when the content type parses as
textual, the declared charset resolves and decodes without error, and the
decoded untrimmed body has length in (0, 256); the HTTP status line in
every other case. -/
def responseErrorSpec (ctParse : Option (String × String)) (body status : List Nat) :
    List Nat :=
  match ctParse with
  | none => status
  | some (mt, charset) =>
    if hasPrefixText mt = true ∧ charsetResolves charset = true ∧
        0 < (respDecodedBody charset body).length ∧
        (respDecodedBody charset body).length < 256 then
      trimSpace (respDecodedBody charset body)
    else status

/-! ## The claims. -/

/-- C1: the claim says that for every UTF-8 JSON input, a code point the
target charset cannot represent is emitted as its JSON escape (one
`\uXXXX` below 0x10000).  This fails for U+FFFD: on the complete 3-byte
UTF-8 input encoding U+FFFD — which us-ascii cannot represent, so the
claim requires the 6-byte escape of U+FFFD — the transcoder emits nothing
and reports `ErrShortSrc`, because it conflates a decoded U+FFFD with a
decoding failure (src/json.go line 192). -/
theorem C1_escape_bug :
    jsonTransform (charmapEncode asciiCm) (utf8EncodeRunes [0xFFFD]) true =
      ([], 0, some TErr.shortSrc) ∧
    utf8FullRune (utf8EncodeRunes [0xFFFD]) = true ∧
    escBytes 0xFFFD = [92, 117, 102, 102, 102, 100] := by
  have hE : charmapEncode asciiCm (utf8EncodeRunes [0xFFFD]) true =
      ([], 0, some (TErr.repertoire asciiCm.sub)) := by
    have h := charmapEncode_rune asciiCm 0xFFFD [] true (by decide)
    rw [show asciiCm.encodeRune 0xFFFD = none from rfl] at h
    simpa [utf8EncodeRunes] using h
  refine ⟨?_, by decide, by decide⟩
  exact jsonTransform_rep_shortSrc _ _ _ _ _ _ hE (by decide)

/-- C2: the claim's round trip fails at the supported charset "us-ascii"
for the serializable value `JValue.str [0xFFFD]` (the JSON document whose string holds U+FFFD): `marshal` returns the transform's `ErrShortSrc` instead of
bytes, so no unmarshal can recover the value. -/
theorem C2_roundtrip_bug :
    marshal mimeIndex "us-ascii" (JValue.str [0xFFFD]) =
      Except.error (GoErr.transformErr TErr.shortSrc) := by
  have h2 : charmapEncode asciiCm [0xEF, 0xBF, 0xBD, 34] true =
      ([], 0, some (TErr.repertoire asciiCm.sub)) := by
    have h := charmapEncode_rune asciiCm 0xFFFD [34] true (by decide)
    rw [show asciiCm.encodeRune 0xFFFD = none from rfl] at h
    simpa [show utf8EncodeRune 0xFFFD = [0xEF, 0xBF, 0xBD] from rfl] using h
  have h1 : charmapEncode asciiCm [34, 0xEF, 0xBF, 0xBD, 34] true =
      ([34], 1, some (TErr.repertoire asciiCm.sub)) := by
    have h := charmapEncode_rune asciiCm 34 [0xEF, 0xBF, 0xBD, 34] true (by decide)
    rw [show asciiCm.encodeRune 34 = some 34 from rfl, h2] at h
    simpa [show utf8EncodeRune 34 = [34] from rfl] using h
  have hT : jsonTransform (charmapEncode asciiCm) [34, 0xEF, 0xBF, 0xBD, 34] true =
      ([34], 1, some TErr.shortSrc) :=
    jsonTransform_rep_shortSrc _ _ _ _ _ _ h1 (by decide)
  rw [marshal]
  rw [if_neg (show ¬("us-ascii" : String) = "" from by decide)]
  rw [if_neg (show ¬eqFoldAscii "us-ascii" "utf-8" = true from by decide)]
  rw [show mimeIndex "us-ascii" = some (CharsetRef.implemented asciiCm.impl) from rfl]
  simp only []
  rw [show jsonMarshal (JValue.str [0xFFFD]) = [34, 0xEF, 0xBF, 0xBD, 34] from rfl]
  rw [show asciiCm.impl.encT = charmapEncode asciiCm from rfl, hT]

/-- C3: a charset name that is case-insensitively "utf-8" short-circuits:
`marshal` returns the plain JSON serialization unchanged, and — shown by
quantifying over an arbitrary registry — performs no registry lookup and
no transform. -/
theorem C3_utf8_identity (index : String → Option CharsetRef) (charset : String)
    (v : JValue) (hfold : eqFoldAscii charset "utf-8" = true) :
    marshal index charset v = Except.ok (jsonMarshal v) := by
  have hne : charset ≠ "" := by
    intro h
    rw [h] at hfold
    exact absurd hfold (by decide)
  rw [marshal]
  rw [if_neg hne, if_pos hfold]

theorem C3_witness : marshal mimeIndex "UTF-8" JValue.null = Except.ok (jsonMarshal JValue.null) :=
  C3_utf8_identity mimeIndex "UTF-8" JValue.null (by decide)

/-- C4: charset resolution keeps the two failure kinds distinct, in both
`marshal` and `unmarshal`: an unrecognized name yields the registry's
invalid-name error, a recognized name with no implementation yields the
respective "unsupported encoding" error, and the error values never
coincide. -/
theorem C4_error_kinds (charset : String) (v : JValue) (buf : List Nat)
    (hne : charset ≠ "") (hfold : eqFoldAscii charset "utf-8" = false) :
    (mimeIndex charset = none →
      marshal mimeIndex charset v = Except.error GoErr.ianaInvalid ∧
      unmarshal mimeIndex buf charset = Except.error GoErr.ianaInvalid) ∧
    (mimeIndex charset = some CharsetRef.unimplemented →
      marshal mimeIndex charset v = Except.error GoErr.marshalUnsupported ∧
      unmarshal mimeIndex buf charset = Except.error GoErr.unmarshalUnsupported) ∧
    GoErr.ianaInvalid ≠ GoErr.marshalUnsupported ∧
    GoErr.ianaInvalid ≠ GoErr.unmarshalUnsupported ∧
    GoErr.marshalUnsupported ≠ GoErr.unmarshalUnsupported := by
  refine ⟨?_, ?_, by decide, by decide, by decide⟩
  · intro hidx
    constructor
    · rw [marshal]
      rw [if_neg hne, if_neg (by simp [hfold]), hidx]
    · rw [unmarshal]
      rw [if_pos ⟨hne, hfold⟩, hidx]
  · intro hidx
    constructor
    · rw [marshal]
      rw [if_neg hne, if_neg (by simp [hfold]), hidx]
    · rw [unmarshal]
      rw [if_pos ⟨hne, hfold⟩, hidx]

theorem C4_witness :
    marshal mimeIndex "made-up" JValue.null = Except.error GoErr.ianaInvalid ∧
    unmarshal mimeIndex [] "OSD_EBCDIC_DF03_IRV" =
      Except.error GoErr.unmarshalUnsupported :=
  ⟨((C4_error_kinds "made-up" JValue.null [] (by decide) (by decide)).1 rfl).1,
   ((C4_error_kinds "OSD_EBCDIC_DF03_IRV" JValue.null [] (by decide) (by decide)).2.1 rfl).2⟩

/-- C5: a UTF-16BE body truncated mid code unit (odd byte length) makes
`unmarshal` fail with the JSON syntax error — the decoder's replacement
character can neither end a JSON value nor be trailing whitespace — and
in particular the input is not silently accepted. -/
theorem C5_truncated_utf16be (bs : List Nat) (hodd : bs.length % 2 = 1) :
    unmarshal mimeIndex bs "utf-16be" = Except.error GoErr.jsonSyntax := by
  rw [unmarshal]
  rw [if_pos ⟨by decide, by decide⟩]
  rw [show mimeIndex "utf-16be" = some (CharsetRef.implemented utf16beImpl) from rfl]
  show jsonUnmarshal (utf16beDecRunes bs) = _
  obtain ⟨pre, hpre⟩ := utf16beDecRunes_odd_all bs.length bs le_rfl hodd
  rw [jsonUnmarshal, parseTop_trailing_fffd _ pre hpre]

theorem C5_witness :
    unmarshal mimeIndex [0, 52, 0] "utf-16be" = Except.error GoErr.jsonSyntax :=
  C5_truncated_utf16be [0, 52, 0] (by decide)

/-- C6: the transcoder's error discipline — a repertoire ("cannot
represent this character") report from the underlying encoder is never
returned as-is: with the decoded code point unavailable only because the
source is short, the transform reports `ErrShortSrc`; otherwise it
escapes exactly one decoded code point and continues; every other error
of the underlying encoder is returned unchanged; and (for encoders that
accept the ASCII escape buffers) no repertoire error ever surfaces. -/
theorem C6_repertoire_handling :
    (∀ (E : List Nat → Bool → List Nat × Nat × Option TErr) src atEOF out ns e,
      E src atEOF = (out, ns, some e) → (∀ b, e ≠ TErr.repertoire b) →
      jsonTransform E src atEOF = (out, ns, some e)) ∧
    (∀ (E : List Nat → Bool → List Nat × Nat × Option TErr) src atEOF out ns b,
      E src atEOF = (out, ns, some (TErr.repertoire b)) →
      (utf8DecodeRune (src.drop ns)).1 = runeError →
      jsonTransform E src atEOF = (out, ns, some TErr.shortSrc)) ∧
    (∀ (E : List Nat → Bool → List Nat × Nat × Option TErr) src atEOF out ns b out2 n2,
      E src atEOF = (out, ns, some (TErr.repertoire b)) →
      (utf8DecodeRune (src.drop ns)).1 ≠ runeError →
      E (escBytes (utf8DecodeRune (src.drop ns)).1) false = (out2, n2, none) →
      jsonTransform E src atEOF =
        (out ++ out2 ++
          (jsonTransform E ((src.drop ns).drop (utf8DecodeRune (src.drop ns)).2) atEOF).1,
         ns + (utf8DecodeRune (src.drop ns)).2 +
          (jsonTransform E ((src.drop ns).drop (utf8DecodeRune (src.drop ns)).2) atEOF).2.1,
         (jsonTransform E ((src.drop ns).drop (utf8DecodeRune (src.drop ns)).2) atEOF).2.2)) ∧
    (∀ (E : List Nat → Bool → List Nat × Nat × Option TErr), EncodesEscapes E →
      ∀ src atEOF b, (jsonTransform E src atEOF).2.2 ≠ some (TErr.repertoire b)) :=
  ⟨jsonTransform_err, jsonTransform_rep_shortSrc, jsonTransform_rep_step,
   fun E hE src atEOF b => jsonTransform_no_repertoire E hE src atEOF b⟩

theorem C6_witness :
    jsonTransform (fun _ _ => ([], 0, some (TErr.repertoire 7))) [] true =
      ([], 0, some TErr.shortSrc) :=
  C6_repertoire_handling.2.1 (fun _ _ => ([], 0, some (TErr.repertoire 7)))
    [] true [] 0 7 rfl (by decide)

/-- C7: charset defaulting is two-layered.  An empty content type makes
`MarshalRequest` and `WriteResponse` behave exactly as with
`application/json;charset=utf-8`, whose charset parameter is "utf-8" and
whose marshal is the identity on the JSON bytes; while a non-empty
content type with no charset parameter reaches `marshal` with the empty
charset, which encodes as "us-ascii". -/
theorem C7_charset_defaulting :
    (∀ sc v, writeResponse sc "" (some v) =
      writeResponse sc "application/json;charset=utf-8" (some v)) ∧
    (∀ m u v, marshalRequest m u "" (some v) =
      marshalRequest m u "application/json;charset=utf-8" (some v)) ∧
    charsetParam "application/json;charset=utf-8" = "utf-8" ∧
    (∀ v, marshal mimeIndex "utf-8" v = Except.ok (jsonMarshal v)) ∧
    (∀ ct v, charsetParam ct = "" →
      marshal mimeIndex (charsetParam ct) v = marshal mimeIndex "us-ascii" v) := by
  refine ⟨fun sc v => rfl, fun m u v => rfl, rfl, ?_, ?_⟩
  · intro v
    rw [marshal]
    rw [if_neg (show ¬("utf-8" : String) = "" from by decide),
      if_pos (show eqFoldAscii "utf-8" "utf-8" = true from by decide)]
  · intro ct v h
    rw [h, marshal, marshal, if_pos rfl,
      if_neg (show ¬("us-ascii" : String) = "" from by decide)]

theorem C7_witness :
    marshal mimeIndex (charsetParam "application/json") JValue.null =
      marshal mimeIndex "us-ascii" JValue.null :=
  C7_charset_defaulting.2.2.2.2 "application/json" JValue.null rfl

/-- C8: a code point the target charset can represent is emitted as its
native charset byte (for example U+00A3 into iso-8859-1 gives the single
byte 0xA3), not as an escape: the transcoding of `r :: rs` starts with
`r`'s charset byte. -/
theorem C8_representable_passthrough (cm : Charmap) (hA : AsciiCompat cm)
    (r c : Nat) (rs : List Nat) (atEOF : Bool)
    (hv : ValidRune r) (hfe : r ≠ runeError) (hc : cm.encodeRune r = some c)
    (hrs : ∀ x ∈ rs, ValidRune x ∧ x ≠ runeError) :
    jsonTransform (charmapEncode cm) (utf8EncodeRunes (r :: rs)) atEOF =
      (c :: transcodeSpec cm rs, (utf8EncodeRunes (r :: rs)).length, none) := by
  have h := jsonTransform_charmap cm hA (r :: rs) atEOF (by
    intro x hx
    rcases List.mem_cons.mp hx with hx | hx
    · subst hx
      exact ⟨hv, fun _ => hfe⟩
    · exact ⟨(hrs x hx).1, fun _ => (hrs x hx).2⟩)
  rw [h, transcodeSpec_cons, hc]
  simp [utf8EncodeRunes]

theorem C8_witness :
    jsonTransform (charmapEncode latin1Cm) (utf8EncodeRunes [0xA3]) true =
      (0xA3 :: transcodeSpec latin1Cm [], (utf8EncodeRunes [0xA3]).length, none) :=
  C8_representable_passthrough latin1Cm latin1Cm_compat 0xA3 0xA3 [] true
    (by decide) (by decide) rfl (by simp)

/-- C9 (corrected): with a nil value, `MarshalRequest` never parses the
content type and builds a bodyless request with no Content-Type or
Content-Length header and no GetBody — for every method and content type,
and every URL the request constructor accepts.  The original claim's "for
every URL" fails: a URL the constructor rejects returns its parse error
(see the counterexample). -/
theorem C9_nil_request (method url contentType : String) (h : urlOk url = true) :
    marshalRequest method url contentType none =
      Except.ok ⟨method, url, none, none, none, false⟩ := by
  rw [marshalRequest]
  rw [if_pos h]

theorem C9_witness :
    marshalRequest "POST" "http://example.com" "application/json;charset=made-up" none =
      Except.ok ⟨"POST", "http://example.com", none, none, none, false⟩ :=
  C9_nil_request "POST" "http://example.com" "application/json;charset=made-up" (by decide)

/-- C9's counterexample to the unqualified claim: with the URL ":::"
(missing protocol scheme — the repository's own invalid_url test case)
`MarshalRequest` returns the URL parse error, not a request. -/
theorem C9_counterexample :
    marshalRequest "POST" ":::" "" none = Except.error GoErr.urlParse := by
  rw [marshalRequest]
  rw [if_neg (by decide)]

/-- C10: `ResponseError.Error` produces the trimmed (decoded) body
exactly under the spec's conjunction — Content-Type parses as a `text/`
media type, the declared charset resolves and decodes without error, and
the decoded untrimmed body's length lies in (0, 256) — and the HTTP
status line otherwise: the source's error-threaded control flow equals
the specification-shaped definition. -/
theorem C10_response_error_message (ctParse : Option (String × String))
    (body status : List Nat) :
    responseError ctParse body status = responseErrorSpec ctParse body status := by
  rcases ctParse with _ | ⟨mt, charset⟩
  · rfl
  · rw [responseError, responseErrorSpec]
    by_cases htext : hasPrefixText mt = true
    · rw [if_pos htext]
      by_cases hcs : charset ≠ "" ∧ eqFoldAscii charset "utf-8" = false
      · rw [if_pos hcs]
        rcases hidx : mimeIndex charset with _ | cref
        · have hres : charsetResolves charset = false := by
            rw [charsetResolves, hidx]
            simp only [Option.isSome_none, Bool.or_false]
            simp [hcs.1, hcs.2]
          simp [hres]
        · cases cref with
          | unimplemented =>
            have hdb : respDecodedBody charset body = body := by
              rw [respDecodedBody, if_pos hcs, hidx]
            have hres : charsetResolves charset = true := by
              rw [charsetResolves, hidx]
              simp
            simp only []
            rw [hdb, hres]
            by_cases hlen : 0 < body.length ∧ body.length < 256
            · rw [if_pos hlen, if_pos ⟨htext, rfl, hlen.1, hlen.2⟩]
            · rw [if_neg hlen, if_neg (by
                intro hcond
                exact hlen ⟨hcond.2.2.1, hcond.2.2.2⟩)]
          | implemented impl =>
            have hdb : respDecodedBody charset body =
                utf8EncodeRunes (impl.decRunes body) := by
              rw [respDecodedBody, if_pos hcs, hidx]
            have hres : charsetResolves charset = true := by
              rw [charsetResolves, hidx]
              simp
            simp only []
            rw [hdb, hres]
            by_cases hlen : 0 < (utf8EncodeRunes (impl.decRunes body)).length ∧
                (utf8EncodeRunes (impl.decRunes body)).length < 256
            · rw [if_pos hlen, if_pos ⟨htext, rfl, hlen.1, hlen.2⟩]
            · rw [if_neg hlen, if_neg (by
                intro hcond
                exact hlen ⟨hcond.2.2.1, hcond.2.2.2⟩)]
      · rw [if_neg hcs]
        have hdb : respDecodedBody charset body = body := by
          rw [respDecodedBody, if_neg hcs]
        have hres : charsetResolves charset = true := by
          rw [charsetResolves]
          rcases not_and_or.mp hcs with h | h
          · simp [not_not.mp h]
          · have : eqFoldAscii charset "utf-8" = true := by
              cases hf : eqFoldAscii charset "utf-8"
              · exact absurd hf h
              · rfl
            simp [this]
        rw [hdb, hres]
        by_cases hlen : 0 < body.length ∧ body.length < 256
        · rw [if_pos hlen, if_pos ⟨htext, rfl, hlen.1, hlen.2⟩]
        · rw [if_neg hlen, if_neg (by
            intro hcond
            exact hlen ⟨hcond.2.2.1, hcond.2.2.2⟩)]
    · rw [if_neg htext, if_neg (by
        intro hcond
        exact htext hcond.1)]

end Httpjson
